import Mathlib

/-
Verification of the weighted-graph shortest-path and traversal engine of the
repository: an adjacency-list graph with edge insertion, a binary-heap Dijkstra
with lazy deletion (task_3.py), breadth-first and depth-first path search
(task2.py), path reconstruction, and all-pairs distance-matrix assembly
(task3.py).

Python dictionaries are embedded as insertion-ordered association lists
(one entry per key for dictionaries built by the code under scrutiny);
vertices are opaque ordered identifiers, embedded as natural numbers; edge
weights are integers (the non-negativity the spec demands is an explicit
hypothesis); float('inf') is the top element of WithTop Int.  Fallible code
(KeyError, NetworkXError) returns Option, with none for a raised error; loops
that the source runs unboundedly take a fuel argument, and the theorems
exhibit explicit sufficient fuel.
-/

set_option maxHeartbeats 1600000

/-! ## Association-list model of Python dict -/

/-- Lookup in an insertion-ordered association list (Python dict access). -/
def dGet {α : Type} : List (ℕ × α) → ℕ → Option α
  | [], _ => none
  | (k, a) :: rest, key => if k = key then some a else dGet rest key

/-- The keys of an association list, in insertion order (Python dict keys). -/
def dKeys {α : Type} (d : List (ℕ × α)) : List ℕ := d.map Prod.fst

/-- Assignment d[key] = a: update in place when present, else append. -/
def dSet {α : Type} : List (ℕ × α) → ℕ → α → List (ℕ × α)
  | [], key, a => [(key, a)]
  | (k, b) :: rest, key, a =>
      if k = key then (k, a) :: rest else (k, b) :: dSet rest key a

/-- d.setdefault(key, []).append(x): append x to the list at key, creating
the entry when absent. -/
def adjPush {α : Type} : List (ℕ × List α) → ℕ → α → List (ℕ × List α)
  | [], key, x => [(key, [x])]
  | (k, l) :: rest, key, x =>
      if k = key then (k, l ++ [x]) :: rest else (k, l) :: adjPush rest key x

/-- d.setdefault(key, []) used for its side effect only. -/
def ensureKey {α : Type} (d : List (ℕ × List α)) (key : ℕ) : List (ℕ × List α) :=
  match dGet d key with
  | some _ => d
  | none => d ++ [(key, [])]

theorem dGet_dSet_self {α : Type} (d : List (ℕ × α)) (k : ℕ) (a : α) :
    dGet (dSet d k a) k = some a := by
  induction d with
  | nil => simp [dSet, dGet]
  | cons e rest ih =>
      obtain ⟨k', b⟩ := e
      by_cases h : k' = k
      · simp [dSet, dGet, h]
      · simp [dSet, dGet, h, ih]

theorem dGet_dSet_ne {α : Type} (d : List (ℕ × α)) (k k' : ℕ) (a : α)
    (h : k' ≠ k) : dGet (dSet d k a) k' = dGet d k' := by
  induction d with
  | nil =>
      have : ¬k = k' := fun hh => h hh.symm
      simp [dSet, dGet, this]
  | cons e rest ih =>
      obtain ⟨k0, b⟩ := e
      by_cases h0 : k0 = k
      · subst h0
        have : ¬k0 = k' := fun hh => h hh.symm
        simp [dSet, dGet, this]
      · simp only [dSet, if_neg h0]
        by_cases h1 : k0 = k'
        · simp [dGet, h1]
        · simp [dGet, h1, ih]

theorem mem_dKeys_iff {α : Type} (d : List (ℕ × α)) (k : ℕ) :
    k ∈ dKeys d ↔ ∃ a, dGet d k = some a := by
  induction d with
  | nil => simp [dKeys, dGet]
  | cons e rest ih =>
      obtain ⟨k0, b⟩ := e
      by_cases h : k0 = k
      · subst h
        simp [dKeys, dGet]
      · have h' : ¬k = k0 := fun hh => h hh.symm
        simp only [dKeys, List.map_cons, List.mem_cons] at ih ⊢
        simp only [dGet, if_neg h]
        constructor
        · rintro (hk | hk)
          · exact absurd hk h'
          · exact ih.mp hk
        · intro hk
          exact Or.inr (ih.mpr hk)

theorem dKeys_dSet_of_mem {α : Type} (d : List (ℕ × α)) (k : ℕ) (a : α)
    (h : k ∈ dKeys d) : dKeys (dSet d k a) = dKeys d := by
  induction d with
  | nil => simp [dKeys] at h
  | cons e rest ih =>
      obtain ⟨k0, b⟩ := e
      by_cases h0 : k0 = k
      · simp [dSet, dKeys, h0]
      · simp only [dKeys, List.map_cons, List.mem_cons] at h
        rcases h with h | h
        · exact absurd h.symm h0
        · have ih' := ih h
          simp only [dKeys] at ih'
          simp [dSet, dKeys, h0, ih']

theorem dGet_map_const {α : Type} (l : List ℕ) (c : α) (k : ℕ) :
    dGet (l.map fun v => (v, c)) k = if k ∈ l then some c else none := by
  induction l with
  | nil => simp [dGet]
  | cons x rest ih =>
      by_cases h : x = k
      · simp [dGet, h]
      · have h' : ¬k = x := fun hh => h hh.symm
        simp [dGet, h, ih, h']

theorem dKeys_map_const {α : Type} (l : List ℕ) (c : α) :
    dKeys (l.map fun v => (v, c)) = l := by
  simp [dKeys, List.map_map, Function.comp_def]

/-! ## The Graph Store (task_3.py, class Graph) -/

/-- adjacency_list: vertex -> insertion-ordered list of (neighbor, weight). -/
def WGraph : Type := List (ℕ × List (ℕ × ℤ))

/-- Graph.add_edge(u, v, w, undirected): append (v, w) to u's adjacency; when
undirected also append (u, w) to v's adjacency, otherwise only create v's
(possibly empty) entry. -/
def add_edge (g : WGraph) (u v : ℕ) (w : ℤ) (undirected : Bool) : WGraph :=
  let g1 := adjPush g u (v, w)
  if undirected then adjPush g1 v (u, w) else ensureKey g1 v

/-- Graph.vertices(): the keys of the adjacency list. -/
def vertices (g : WGraph) : List ℕ := dKeys g

/-- Every neighbor mentioned in an adjacency list is itself a key: true of
every graph built by add_edge (proved below), assumed where needed. -/
def Closed (g : WGraph) : Prop :=
  ∀ u l, dGet g u = some l → ∀ p ∈ l, p.1 ∈ dKeys g

/-- All edge weights are non-negative. -/
def Nonneg (g : WGraph) : Prop :=
  ∀ u l, dGet g u = some l → ∀ p ∈ l, 0 ≤ p.2

/-! ## Weighted walks and the shortest-distance specification -/

/-- A walk in the weighted graph: each step records the vertex stepped to and
the weight of the edge used (edges can be parallel, so the weight is part of
the step). -/
inductive CostWalk (g : WGraph) : ℕ → List (ℕ × ℤ) → ℕ → Prop
  | nil (u : ℕ) : CostWalk g u [] u
  | cons {u t : ℕ} {e : ℕ × ℤ} {steps : List (ℕ × ℤ)} {l : List (ℕ × ℤ)}
      (hl : dGet g u = some l) (hmem : e ∈ l)
      (rest : CostWalk g e.1 steps t) : CostWalk g u (e :: steps) t

/-- Total weight of a walk. -/
def wcost (steps : List (ℕ × ℤ)) : ℤ := (steps.map Prod.snd).sum

/-- Reachability along weighted walks. -/
def Reach (g : WGraph) (s v : ℕ) : Prop := ∃ steps, CostWalk g s steps v

/-- d is the minimum total weight over all walks from s to v: attained by a
walk whose vertex sequence repeats no vertex, and a lower bound for every
walk (hence exactly the minimum over all paths). -/
def IsMinDist (g : WGraph) (s v : ℕ) (d : ℤ) : Prop :=
  (∃ steps, CostWalk g s steps v ∧ (s :: steps.map Prod.fst).Nodup ∧
    wcost steps = d) ∧
  ∀ steps, CostWalk g s steps v → d ≤ wcost steps

theorem wcost_nil : wcost [] = 0 := rfl

theorem wcost_cons (e : ℕ × ℤ) (steps : List (ℕ × ℤ)) :
    wcost (e :: steps) = e.2 + wcost steps := by
  simp [wcost]

theorem wcost_append (l1 l2 : List (ℕ × ℤ)) :
    wcost (l1 ++ l2) = wcost l1 + wcost l2 := by
  simp [wcost]

theorem CostWalk.append {g : WGraph} {s m t : ℕ} {l1 l2 : List (ℕ × ℤ)}
    (h1 : CostWalk g s l1 m) (h2 : CostWalk g m l2 t) :
    CostWalk g s (l1 ++ l2) t := by
  induction h1 with
  | nil => simpa using h2
  | cons hl hmem _rest ih => exact CostWalk.cons hl hmem (ih h2)

theorem CostWalk.split {g : WGraph} {s t : ℕ} {l1 l2 : List (ℕ × ℤ)}
    (h : CostWalk g s (l1 ++ l2) t) :
    ∃ m, CostWalk g s l1 m ∧ CostWalk g m l2 t := by
  induction l1 generalizing s with
  | nil => exact ⟨s, CostWalk.nil s, by simpa using h⟩
  | cons e rest ih =>
      cases h with
      | cons hl hmem hrest =>
          obtain ⟨m, hm1, hm2⟩ := ih hrest
          exact ⟨m, CostWalk.cons hl hmem hm1, hm2⟩

theorem CostWalk.snoc_split {g : WGraph} {s t : ℕ} {l : List (ℕ × ℤ)}
    {e : ℕ × ℤ} (h : CostWalk g s (l ++ [e]) t) :
    ∃ m lm, CostWalk g s l m ∧ dGet g m = some lm ∧ e ∈ lm ∧ t = e.1 := by
  obtain ⟨m, hm1, hm2⟩ := CostWalk.split h
  cases hm2 with
  | cons hl hmem hrest =>
      cases hrest
      exact ⟨m, _, hm1, hl, hmem, rfl⟩

theorem wcost_nonneg {g : WGraph} (hn : Nonneg g) {s t : ℕ}
    {steps : List (ℕ × ℤ)} (h : CostWalk g s steps t) : 0 ≤ wcost steps := by
  induction h with
  | nil => simp [wcost]
  | cons hl hmem _rest ih =>
      rw [wcost_cons]
      have := hn _ _ hl _ hmem
      omega

theorem CostWalk.target_mem {g : WGraph} (hc : Closed g) {s t : ℕ}
    {steps : List (ℕ × ℤ)} (h : CostWalk g s steps t) (hs : s ∈ dKeys g) :
    t ∈ dKeys g := by
  induction h with
  | nil => exact hs
  | cons hl hmem _rest ih => exact ih (hc _ _ hl _ hmem)

theorem IsMinDist.unique {g : WGraph} {s v : ℕ} {d d' : ℤ}
    (h : IsMinDist g s v d) (h' : IsMinDist g s v d') : d = d' := by
  obtain ⟨⟨st, hw, _, hc⟩, hmin⟩ := h
  obtain ⟨⟨st', hw', _, hc'⟩, hmin'⟩ := h'
  have h1 := hmin st' hw'
  have h2 := hmin' st hw
  omega

/-! ## Cutting a walk down to a simple one -/

theorem walk_drop_to_vertex {g : WGraph} (hn : Nonneg g) {x v a : ℕ}
    {steps : List (ℕ × ℤ)} (h : CostWalk g x steps v)
    (ha : a ∈ x :: steps.map Prod.fst) :
    ∃ tail, CostWalk g a tail v ∧ tail.length ≤ steps.length ∧
      wcost tail ≤ wcost steps := by
  induction h with
  | nil =>
      simp only [List.map_nil, List.mem_singleton] at ha
      subst ha
      exact ⟨[], CostWalk.nil _, by simp, by simp⟩
  | cons hl hmem hrest ih =>
      rename_i u t e steps' l
      by_cases hax : a = u
      · subst hax
        exact ⟨_, CostWalk.cons hl hmem hrest, le_refl _, le_refl _⟩
      · have ha' : a ∈ e.1 :: steps'.map Prod.fst := by
          simp only [List.map_cons, List.mem_cons] at ha
          rcases ha with h1 | h1 | h1
          · exact absurd h1 hax
          · simp [h1]
          · simp [h1]
        obtain ⟨tail, ht1, ht2, ht3⟩ := ih ha'
        have hw : 0 ≤ e.2 := hn _ _ hl _ hmem
        refine ⟨tail, ht1, ?_, ?_⟩
        · simp only [List.length_cons]
          omega
        · rw [wcost_cons]
          omega

theorem walk_shorten {g : WGraph} (hn : Nonneg g) {s v : ℕ}
    {steps : List (ℕ × ℤ)} (h : CostWalk g s steps v)
    (hdup : ¬(s :: steps.map Prod.fst).Nodup) :
    ∃ steps2, CostWalk g s steps2 v ∧ steps2.length < steps.length ∧
      wcost steps2 ≤ wcost steps := by
  induction h with
  | nil => simp at hdup
  | cons hl hmem hrest ih =>
      rename_i u t e steps' l
      by_cases hu : u ∈ e.1 :: steps'.map Prod.fst
      · obtain ⟨tail, ht1, ht2, ht3⟩ := walk_drop_to_vertex hn hrest hu
        have hw : 0 ≤ e.2 := hn _ _ hl _ hmem
        refine ⟨tail, ht1, ?_, ?_⟩
        · simp only [List.length_cons]
          omega
        · rw [wcost_cons]
          omega
      · have hdup' : ¬(e.1 :: steps'.map Prod.fst).Nodup := by
          intro hnd
          apply hdup
          simp only [List.map_cons]
          exact List.nodup_cons.mpr ⟨hu, hnd⟩
        obtain ⟨steps2, h1, h2, h3⟩ := ih hdup'
        refine ⟨e :: steps2, CostWalk.cons hl hmem h1, ?_, ?_⟩
        · simp only [List.length_cons]
          omega
        · rw [wcost_cons, wcost_cons]
          omega

theorem exists_nodup_walk_aux {g : WGraph} (hn : Nonneg g) (s v : ℕ) :
    ∀ n steps, steps.length ≤ n → CostWalk g s steps v →
    ∃ steps2, CostWalk g s steps2 v ∧ (s :: steps2.map Prod.fst).Nodup ∧
      wcost steps2 ≤ wcost steps := by
  intro n
  induction n with
  | zero =>
      intro steps hlen h
      have : steps = [] := List.length_eq_zero.mp (Nat.le_zero.mp hlen)
      subst this
      exact ⟨[], h, by simp, le_refl _⟩
  | succ n ih =>
      intro steps hlen h
      by_cases hnd : (s :: steps.map Prod.fst).Nodup
      · exact ⟨steps, h, hnd, le_refl _⟩
      · obtain ⟨steps2, h1, h2, h3⟩ := walk_shorten hn h hnd
        have hlen2 : steps2.length ≤ n := by omega
        obtain ⟨steps3, g1, g2, g3⟩ := ih steps2 hlen2 h1
        exact ⟨steps3, g1, g2, le_trans g3 h3⟩

theorem exists_nodup_walk {g : WGraph} (hn : Nonneg g) {s v : ℕ}
    {steps : List (ℕ × ℤ)} (h : CostWalk g s steps v) :
    ∃ steps2, CostWalk g s steps2 v ∧ (s :: steps2.map Prod.fst).Nodup ∧
      wcost steps2 ≤ wcost steps :=
  exists_nodup_walk_aux hn s v steps.length steps (le_refl _) h

/-! ## The Priority Queue Adapter (heapq on (distance, vertex) tuples) -/

/-- Tuple comparison on heap entries, as Python compares (float, str) pairs:
by key first, then by vertex identity. -/
def entryLeB (a b : ℤ × ℕ) : Bool :=
  if a.1 < b.1 then true else if a.1 = b.1 then a.2 ≤ b.2 else false

/-- The minimum entry of the heap under tuple order (what heappop returns). -/
def heapMin : List (ℤ × ℕ) → Option (ℤ × ℕ)
  | [] => none
  | e :: rest =>
      match heapMin rest with
      | none => some e
      | some m => if entryLeB e m then some e else some m

/-- heappop: remove and return the minimum entry. -/
def popMin (h : List (ℤ × ℕ)) : Option ((ℤ × ℕ) × List (ℤ × ℕ)) :=
  match heapMin h with
  | none => none
  | some m => some (m, h.erase m)

theorem heapMin_cons_none {e : ℤ × ℕ} {rest : List (ℤ × ℕ)}
    (hrest : heapMin rest = none) : heapMin (e :: rest) = some e := by
  simp [heapMin, hrest]

theorem heapMin_cons_some {e m0 : ℤ × ℕ} {rest : List (ℤ × ℕ)}
    (hrest : heapMin rest = some m0) :
    heapMin (e :: rest) = if entryLeB e m0 then some e else some m0 := by
  simp [heapMin, hrest]

theorem entryLeB_total (a b : ℤ × ℕ) : entryLeB a b ∨ entryLeB b a := by
  simp only [entryLeB]
  rcases lt_trichotomy a.1 b.1 with h | h | h
  · left; simp [h]
  · rcases le_total a.2 b.2 with h2 | h2
    · left; simp [h, h2, lt_irrefl]
    · right; simp [h.symm, h2, lt_irrefl]
  · right; simp [h]

theorem entryLeB_key {a b : ℤ × ℕ} (h : entryLeB a b = true) : a.1 ≤ b.1 := by
  simp only [entryLeB] at h
  by_cases h1 : a.1 < b.1
  · exact le_of_lt h1
  · rw [if_neg h1] at h
    by_cases h2 : a.1 = b.1
    · exact le_of_eq h2
    · simp [h2] at h

theorem heapMin_mem {h : List (ℤ × ℕ)} {m : ℤ × ℕ}
    (hm : heapMin h = some m) : m ∈ h := by
  induction h with
  | nil => simp [heapMin] at hm
  | cons e rest ih =>
      cases hrest : heapMin rest with
      | none =>
          rw [heapMin_cons_none hrest] at hm
          simp only [Option.some.injEq] at hm
          simp [hm.symm]
      | some m0 =>
          rw [heapMin_cons_some hrest] at hm
          by_cases hle : entryLeB e m0
          · rw [if_pos hle] at hm
            simp only [Option.some.injEq] at hm
            simp [hm.symm]
          · rw [if_neg hle] at hm
            simp only [Option.some.injEq] at hm
            subst hm
            exact List.mem_cons_of_mem _ (ih hrest)

theorem heapMin_le {h : List (ℤ × ℕ)} {m : ℤ × ℕ}
    (hm : heapMin h = some m) : ∀ e ∈ h, m.1 ≤ e.1 := by
  induction h generalizing m with
  | nil => simp [heapMin] at hm
  | cons e rest ih =>
      intro x hx
      cases hrest : heapMin rest with
      | none =>
          rw [heapMin_cons_none hrest] at hm
          simp only [Option.some.injEq] at hm
          subst hm
          have hnil : rest = [] := by
            cases rest with
            | nil => rfl
            | cons a l =>
                cases hl : heapMin l with
                | none => rw [heapMin_cons_none hl] at hrest; simp at hrest
                | some m1 =>
                    rw [heapMin_cons_some hl] at hrest
                    by_cases hc : entryLeB a m1 <;> simp [hc] at hrest
          subst hnil
          simp only [List.mem_singleton] at hx
          subst hx
          exact le_refl _
      | some m0 =>
          rw [heapMin_cons_some hrest] at hm
          simp only [List.mem_cons] at hx
          have hm0 := ih hrest
          by_cases hle : entryLeB e m0
          · rw [if_pos hle] at hm
            simp only [Option.some.injEq] at hm
            subst hm
            have hem0 : e.1 ≤ m0.1 := entryLeB_key hle
            rcases hx with hx | hx
            · subst hx; exact le_refl _
            · exact le_trans hem0 (hm0 x hx)
          · rw [if_neg hle] at hm
            simp only [Option.some.injEq] at hm
            subst hm
            have hem : m0.1 ≤ e.1 := by
              have := (entryLeB_total e m0).resolve_left (by simpa using hle)
              exact entryLeB_key this
            rcases hx with hx | hx
            · subst hx; exact hem
            · exact hm0 x hx

theorem heapMin_none_iff {h : List (ℤ × ℕ)} : heapMin h = none ↔ h = [] := by
  cases h with
  | nil => simp [heapMin]
  | cons e rest =>
      constructor
      · intro hm
        cases hrest : heapMin rest with
        | none => rw [heapMin_cons_none hrest] at hm; simp at hm
        | some m0 =>
            rw [heapMin_cons_some hrest] at hm
            by_cases hc : entryLeB e m0 <;> simp [hc] at hm
      · intro hh
        exact absurd hh (List.cons_ne_nil e rest)

/-! ## The Dijkstra Engine (task_3.py, dijkstra_heap) -/

/-- Mutable state of dijkstra_heap: the dist dict (float('inf') is ⊤), the
prev dict, and the heap contents. -/
structure DState where
  dist : List (ℕ × WithTop ℤ)
  prev : List (ℕ × Option ℕ)
  heap : List (ℤ × ℕ)

/-- The inner for-loop over graph.adjacency_list[u]: relax every neighbor,
pushing an updated entry when the candidate distance strictly improves.
current_dist is k; returns none on a KeyError (neighbor missing from dist). -/
def relaxAll (k : ℤ) (u : ℕ) : List (ℕ × ℤ) → DState → Option DState
  | [], st => some st
  | (v, w) :: rest, st =>
      match dGet st.dist v with
      | none => none
      | some dv =>
          if (((k + w : ℤ) : WithTop ℤ)) < dv then
            relaxAll k u rest
              ⟨dSet st.dist v ((k + w : ℤ) : WithTop ℤ),
               dSet st.prev v (some u),
               st.heap ++ [(k + w, v)]⟩
          else relaxAll k u rest st

/-- The main while-loop of dijkstra_heap, with fuel.  none means fuel ran out
or a KeyError was raised; the theorems provide sufficient fuel. -/
def dLoop (g : WGraph) : ℕ → DState → Option (List (ℕ × WithTop ℤ) × List (ℕ × Option ℕ))
  | 0, _ => none
  | fuel + 1, st =>
      match popMin st.heap with
      | none => some (st.dist, st.prev)
      | some ((k, u), h2) =>
          match dGet st.dist u with
          | none => none
          | some du =>
              if du < (k : WithTop ℤ) then
                dLoop g fuel ⟨st.dist, st.prev, h2⟩
              else
                match dGet g u with
                | none => none
                | some nbrs =>
                    match relaxAll k u nbrs ⟨st.dist, st.prev, h2⟩ with
                    | none => none
                    | some st2 => dLoop g fuel st2

/-- dist = {v: inf for v in graph.vertices()}; dist[start] = 0. -/
def initDist (g : WGraph) (start : ℕ) : List (ℕ × WithTop ℤ) :=
  dSet ((vertices g).map fun v => (v, (⊤ : WithTop ℤ))) start 0

/-- prev = {v: None for v in graph.vertices()}. -/
def initPrev (g : WGraph) : List (ℕ × Option ℕ) :=
  (vertices g).map fun v => (v, none)

/-- dijkstra_heap(graph, start): initialize, seed the heap with (0, start),
run the loop. -/
def dijkstra_heap (g : WGraph) (start : ℕ) (fuel : ℕ) :
    Option (List (ℕ × WithTop ℤ) × List (ℕ × Option ℕ)) :=
  dLoop g fuel ⟨initDist g start, initPrev g, [(0, start)]⟩

/-- Total number of adjacency entries of the graph (an upper bound on the
pushes any one vertex-processing can perform). -/
def totalAdj (g : WGraph) : ℕ := (g.map fun e => e.2.length).sum

/-- Fuel that always suffices for dijkstra_heap (proved below). -/
def dijkstraFuel (g : WGraph) : ℕ :=
  (dKeys g).dedup.length * (totalAdj g + 1) + 2

/-! ## Path reconstruction (task_3.py, reconstruct_path) -/

/-- The backward while-loop of reconstruct_path: follow prev from cur,
collecting vertices in visit order (target first); none on KeyError or fuel
exhaustion. -/
def walkBack (prev : List (ℕ × Option ℕ)) : ℕ → ℕ → Option (List ℕ)
  | 0, _ => none
  | fuel + 1, cur =>
      match dGet prev cur with
      | none => none
      | some none => some [cur]
      | some (some p) => (walkBack prev fuel p).map fun rest => cur :: rest

/-- reconstruct_path(prev, start, target): the outer none is a raised
KeyError (or exhausted fuel); some none is the normal "no path" return. -/
def reconstruct_path (prev : List (ℕ × Option ℕ)) (start target : ℕ)
    (fuel : ℕ) : Option (Option (List ℕ)) :=
  match dGet prev target with
  | none => none
  | some o =>
      if o = none ∧ start ≠ target then some none
      else (walkBack prev fuel target).map fun p => some p.reverse

/-- A quick sanity check of the embedding on the 3-cycle of the spec:
edges A-B(1), B-C(1), C-A(1) as vertices 1,2,3. -/
def cycleGraph : WGraph :=
  add_edge (add_edge (add_edge [] 1 2 1 true) 2 3 1 true) 3 1 1 true

example :
    (dijkstra_heap cycleGraph 1 (dijkstraFuel cycleGraph)).map
      (fun dp => (dGet dp.1 2, dGet dp.1 3)) =
    some (some ((1 : ℤ) : WithTop ℤ), some ((1 : ℤ) : WithTop ℤ)) := by
  decide

/-! ## The Unweighted Traversal Engine (task2.py, bfs_path and dfs_path) -/

/-- The unweighted graph consumed by the traversal engine (the networkx
adjacency structure): vertex -> list of neighbors. -/
def NGraph : Type := List (ℕ × List ℕ)

/-- Insert into an ascending list (helper for the Python sorted builtin). -/
def insertAsc (x : ℕ) : List ℕ → List ℕ
  | [] => [x]
  | y :: rest => if x ≤ y then x :: y :: rest else y :: insertAsc x rest

/-- sorted(xs): ascending insertion sort. -/
def sortAsc : List ℕ → List ℕ
  | [] => []
  | x :: rest => insertAsc x (sortAsc rest)

/-- Insert into a descending list. -/
def insertDesc (x : ℕ) : List ℕ → List ℕ
  | [] => [x]
  | y :: rest => if y ≤ x then x :: y :: rest else y :: insertDesc x rest

/-- sorted(xs, reverse=True): descending insertion sort. -/
def sortDesc : List ℕ → List ℕ
  | [] => []
  | x :: rest => insertDesc x (sortDesc rest)

theorem mem_insertAsc (a x : ℕ) (l : List ℕ) :
    a ∈ insertAsc x l ↔ a = x ∨ a ∈ l := by
  induction l with
  | nil => simp [insertAsc]
  | cons y rest ih =>
      by_cases h : x ≤ y
      · simp [insertAsc, h]
      · simp [insertAsc, h, ih]
        tauto

theorem mem_sortAsc (a : ℕ) (l : List ℕ) : a ∈ sortAsc l ↔ a ∈ l := by
  induction l with
  | nil => simp [sortAsc]
  | cons x rest ih => simp [sortAsc, mem_insertAsc, ih]

theorem mem_insertDesc (a x : ℕ) (l : List ℕ) :
    a ∈ insertDesc x l ↔ a = x ∨ a ∈ l := by
  induction l with
  | nil => simp [insertDesc]
  | cons y rest ih =>
      by_cases h : y ≤ x
      · simp [insertDesc, h]
      · simp [insertDesc, h, ih]
        tauto

theorem mem_sortDesc (a : ℕ) (l : List ℕ) : a ∈ sortDesc l ↔ a ∈ l := by
  induction l with
  | nil => simp [sortDesc]
  | cons x rest ih => simp [sortDesc, mem_insertDesc, ih]

/-- BFS neighbor expansion: for each neighbor not yet visited, mark visited,
record the visit, and enqueue the extended path.  Yields the updated
(queue, visited, visit order). -/
def bfsExpand (path : List ℕ) : List ℕ → List (List ℕ) → List ℕ → List ℕ →
    List (List ℕ) × List ℕ × List ℕ
  | [], q, vis, ord => (q, vis, ord)
  | n :: rest, q, vis, ord =>
      if n ∈ vis then bfsExpand path rest q vis ord
      else bfsExpand path rest (q ++ [path ++ [n]]) (vis ++ [n]) (ord ++ [n])

/-- The while-loop of bfs_path over a queue of partial paths; none is a
raised error (NetworkXError for a vertex not in the graph, or exhausted
fuel); some (none, order) is the graceful no-path return. -/
def bfsLoop (g : NGraph) (goal : ℕ) : ℕ → List (List ℕ) → List ℕ → List ℕ →
    Option (Option (List ℕ) × List ℕ)
  | 0, _, _, _ => none
  | _ + 1, [], _, ord => some (none, ord)
  | fuel + 1, path :: qrest, vis, ord =>
      match path.getLast? with
      | none => none
      | some node =>
          if node = goal then some (some path, ord)
          else
            match dGet g node with
            | none => none
            | some nbrs =>
                match bfsExpand path (sortAsc nbrs) qrest vis ord with
                | (q2, vis2, ord2) => bfsLoop g goal fuel q2 vis2 ord2

/-- bfs_path(graph, start, goal): start is visited and enqueued immediately. -/
def bfs_path (g : NGraph) (start goal : ℕ) (fuel : ℕ) :
    Option (Option (List ℕ) × List ℕ) :=
  bfsLoop g goal fuel [[start]] [start] [start]

/-- DFS neighbor push: iterate the descending neighbor list, pushing each
unvisited extension; the head of the stack list is the Python list's end
(the top of the stack). -/
def dfsPush (path : List ℕ) : List ℕ → List ℕ → List (List ℕ) → List (List ℕ)
  | [], _, stack => stack
  | n :: rest, vis, stack =>
      dfsPush path rest vis (if n ∈ vis then stack else (path ++ [n]) :: stack)

/-- The while-loop of dfs_path over a stack of partial paths. -/
def dfsLoop (g : NGraph) (goal : ℕ) : ℕ → List (List ℕ) → List ℕ → List ℕ →
    Option (Option (List ℕ) × List ℕ)
  | 0, _, _, _ => none
  | _ + 1, [], _, ord => some (none, ord)
  | fuel + 1, path :: srest, vis, ord =>
      match path.getLast? with
      | none => none
      | some node =>
          if node ∈ vis then dfsLoop g goal fuel srest vis ord
          else
            if node = goal then some (some path, ord ++ [node])
            else
              match dGet g node with
              | none => none
              | some nbrs =>
                  dfsLoop g goal fuel (dfsPush path (sortDesc nbrs) (vis ++ [node]) srest)
                    (vis ++ [node]) (ord ++ [node])

/-- dfs_path(graph, start, goal): visited starts empty, marking happens on
pop. -/
def dfs_path (g : NGraph) (start goal : ℕ) (fuel : ℕ) :
    Option (Option (List ℕ) × List ℕ) :=
  dfsLoop g goal fuel [[start]] [] []

/-- Fuel that always suffices for bfs_path (proved below). -/
def bfsFuel (g : NGraph) (start : ℕ) : ℕ := (start :: dKeys g).dedup.length + 1

/-! ## Hop walks (the unweighted view used by BFS) -/

/-- An unweighted walk: the list of vertices stepped to after the start. -/
inductive NWalk (g : NGraph) : ℕ → List ℕ → ℕ → Prop
  | nil (u : ℕ) : NWalk g u [] u
  | cons {u v t : ℕ} {vs : List ℕ} {l : List ℕ}
      (hl : dGet g u = some l) (hmem : v ∈ l)
      (rest : NWalk g v vs t) : NWalk g u (v :: vs) t

/-- Hop reachability. -/
def NReach (g : NGraph) (s v : ℕ) : Prop := ∃ vs, NWalk g s vs v

/-- n is the minimum number of hops over all walks from s to v. -/
def IsMinHops (g : NGraph) (s v : ℕ) (n : ℕ) : Prop :=
  (∃ vs, NWalk g s vs v ∧ vs.length = n) ∧
  ∀ vs, NWalk g s vs v → n ≤ vs.length

/-- Closedness of the unweighted graph. -/
def NClosed (g : NGraph) : Prop :=
  ∀ u l, dGet g u = some l → ∀ n ∈ l, n ∈ dKeys g

theorem nwalk_append {g : NGraph} {s m t : ℕ} {l1 l2 : List ℕ}
    (h1 : NWalk g s l1 m) (h2 : NWalk g m l2 t) : NWalk g s (l1 ++ l2) t := by
  induction h1 with
  | nil => simpa using h2
  | cons hl hmem _rest ih => exact NWalk.cons hl hmem (ih h2)

theorem nwalk_split {g : NGraph} {s t : ℕ} {l1 l2 : List ℕ}
    (h : NWalk g s (l1 ++ l2) t) : ∃ m, NWalk g s l1 m ∧ NWalk g m l2 t := by
  induction l1 generalizing s with
  | nil => exact ⟨s, NWalk.nil s, by simpa using h⟩
  | cons v rest ih =>
      cases h with
      | cons hl hmem hrest =>
          obtain ⟨m, hm1, hm2⟩ := ih hrest
          exact ⟨m, NWalk.cons hl hmem hm1, hm2⟩

theorem nwalk_snoc_split {g : NGraph} {s t : ℕ} {l : List ℕ} {v : ℕ}
    (h : NWalk g s (l ++ [v]) t) :
    ∃ m lm, NWalk g s l m ∧ dGet g m = some lm ∧ v ∈ lm ∧ t = v := by
  obtain ⟨m, hm1, hm2⟩ := nwalk_split h
  cases hm2 with
  | cons hl hmem hrest =>
      cases hrest
      exact ⟨m, _, hm1, hl, hmem, rfl⟩

theorem nwalk_target_mem {g : NGraph} (hc : NClosed g) {s t : ℕ}
    {vs : List ℕ} (h : NWalk g s vs t) (hs : s ∈ dKeys g) : t ∈ dKeys g := by
  induction h with
  | nil => exact hs
  | cons hl hmem _rest ih => exact ih (hc _ _ hl _ hmem)

theorem isMinHops_unique {g : NGraph} {s v : ℕ} {n n' : ℕ}
    (h : IsMinHops g s v n) (h' : IsMinHops g s v n') : n = n' := by
  obtain ⟨⟨vs, hw, hl⟩, hmin⟩ := h
  obtain ⟨⟨vs', hw', hl'⟩, hmin'⟩ := h'
  have h1 := hmin vs' hw'
  have h2 := hmin' vs hw
  omega

theorem isMinHops_zero {g : NGraph} (s : ℕ) : IsMinHops g s s 0 :=
  ⟨⟨[], NWalk.nil s, rfl⟩, fun _ _ => Nat.zero_le _⟩

theorem isMinHops_zero_eq {g : NGraph} {s v : ℕ} (h : IsMinHops g s v 0) :
    v = s := by
  obtain ⟨⟨vs, hw, hl⟩, _⟩ := h
  have : vs = [] := List.length_eq_zero.mp hl
  subst this
  cases hw
  rfl

/-! ## Properties of edge insertion (Graph.add_edge) -/

/-- The adjacency list of u (empty when u has no entry). -/
def adjOf (g : WGraph) (u : ℕ) : List (ℕ × ℤ) := (dGet g u).getD []

theorem dGet_adjPush_self {α : Type} (d : List (ℕ × List α)) (k : ℕ) (x : α) :
    dGet (adjPush d k x) k = some ((dGet d k).getD [] ++ [x]) := by
  induction d with
  | nil => simp [adjPush, dGet]
  | cons e rest ih =>
      obtain ⟨k0, l⟩ := e
      by_cases h : k0 = k
      · simp [adjPush, dGet, h]
      · simp [adjPush, dGet, h, ih]

theorem dGet_adjPush_ne {α : Type} (d : List (ℕ × List α)) (k k' : ℕ) (x : α)
    (h : k' ≠ k) : dGet (adjPush d k x) k' = dGet d k' := by
  induction d with
  | nil =>
      have : ¬k = k' := fun hh => h hh.symm
      simp [adjPush, dGet, this]
  | cons e rest ih =>
      obtain ⟨k0, l⟩ := e
      by_cases h0 : k0 = k
      · subst h0
        have : ¬k0 = k' := fun hh => h hh.symm
        simp [adjPush, dGet, this]
      · simp only [adjPush, if_neg h0]
        by_cases h1 : k0 = k'
        · simp [dGet, h1]
        · simp [dGet, h1, ih]

theorem dGet_append_right {α : Type} (d : List (ℕ × α)) (k : ℕ) (a : α)
    (h : dGet d k = none) : dGet (d ++ [(k, a)]) k = some a := by
  induction d with
  | nil => simp [dGet]
  | cons e rest ih =>
      obtain ⟨k0, b⟩ := e
      by_cases h0 : k0 = k
      · simp [dGet, h0] at h
      · simp only [dGet, if_neg h0] at h
        simp [dGet, if_neg h0, ih h]

theorem dGet_append_ne {α : Type} (d : List (ℕ × α)) (k k' : ℕ) (a : α)
    (h : k' ≠ k) : dGet (d ++ [(k, a)]) k' = dGet d k' := by
  induction d with
  | nil =>
      have : ¬k = k' := fun hh => h hh.symm
      simp [dGet, this]
  | cons e rest ih =>
      obtain ⟨k0, b⟩ := e
      by_cases h0 : k0 = k'
      · simp [dGet, h0]
      · simp [dGet, h0, ih]

theorem dGet_ensureKey_self {α : Type} (d : List (ℕ × List α)) (k : ℕ) :
    dGet (ensureKey d k) k = some ((dGet d k).getD []) := by
  unfold ensureKey
  cases h : dGet d k with
  | none => simp [dGet_append_right d k [] h]
  | some l => simp [h]

theorem dGet_ensureKey_ne {α : Type} (d : List (ℕ × List α)) (k k' : ℕ)
    (h : k' ≠ k) : dGet (ensureKey d k) k' = dGet d k' := by
  unfold ensureKey
  cases hd : dGet d k with
  | none => exact dGet_append_ne d k k' [] h
  | some l => rfl

theorem mem_adjOf_adjPush {α : Type} {d : List (ℕ × List α)} {k x : ℕ}
    {e p : α} (h : p ∈ ((dGet (adjPush d k e) x).getD [])) :
    p ∈ (dGet d x).getD [] ∨ (x = k ∧ p = e) := by
  by_cases hx : x = k
  · subst hx
    rw [dGet_adjPush_self] at h
    simp only [Option.getD_some, List.mem_append, List.mem_singleton] at h
    rcases h with h | h
    · exact Or.inl h
    · exact Or.inr ⟨rfl, h⟩
  · rw [dGet_adjPush_ne d k x e hx] at h
    exact Or.inl h

theorem mem_adjOf_add_edge {g : WGraph} {u v x : ℕ} {w : ℤ} {b : Bool}
    {p : ℕ × ℤ} (h : p ∈ adjOf (add_edge g u v w b) x) :
    p ∈ adjOf g x ∨ (x = u ∧ p = (v, w)) ∨ (x = v ∧ p = (u, w) ∧ b = true) := by
  unfold add_edge at h
  unfold adjOf at h ⊢
  cases b with
  | true =>
      simp only [if_pos] at h
      rcases mem_adjOf_adjPush h with h1 | h1
      · rcases mem_adjOf_adjPush h1 with h2 | h2
        · exact Or.inl h2
        · exact Or.inr (Or.inl h2)
      · exact Or.inr (Or.inr ⟨h1.1, h1.2, rfl⟩)
  | false =>
      simp only [Bool.false_eq_true, if_neg, ite_false] at h
      by_cases hx : x = v
      · subst hx
        rw [dGet_ensureKey_self] at h
        simp only [Option.getD_some] at h
        rcases mem_adjOf_adjPush h with h2 | h2
        · exact Or.inl h2
        · exact Or.inr (Or.inl h2)
      · rw [dGet_ensureKey_ne _ v x hx] at h
        rcases mem_adjOf_adjPush h with h2 | h2
        · exact Or.inl h2
        · exact Or.inr (Or.inl h2)

theorem mem_dKeys_adjPush_iff {α : Type} (d : List (ℕ × List α)) (k x : ℕ)
    (e : α) : x ∈ dKeys (adjPush d k e) ↔ x ∈ dKeys d ∨ x = k := by
  constructor
  · intro h
    obtain ⟨l, hl⟩ := (mem_dKeys_iff _ x).mp h
    by_cases hx : x = k
    · exact Or.inr hx
    · rw [dGet_adjPush_ne d k x e hx] at hl
      exact Or.inl ((mem_dKeys_iff _ x).mpr ⟨l, hl⟩)
  · intro h
    rcases h with h | h
    · obtain ⟨l, hl⟩ := (mem_dKeys_iff _ x).mp h
      by_cases hx : x = k
      · subst hx
        exact (mem_dKeys_iff _ x).mpr ⟨_, dGet_adjPush_self d x e⟩
      · rw [← dGet_adjPush_ne d k x e hx] at hl
        exact (mem_dKeys_iff _ x).mpr ⟨l, hl⟩
    · subst h
      exact (mem_dKeys_iff _ x).mpr ⟨_, dGet_adjPush_self d x e⟩

theorem mem_dKeys_ensureKey_iff {α : Type} (d : List (ℕ × List α)) (k x : ℕ) :
    x ∈ dKeys (ensureKey d k) ↔ x ∈ dKeys d ∨ x = k := by
  constructor
  · intro h
    obtain ⟨l, hl⟩ := (mem_dKeys_iff _ x).mp h
    by_cases hx : x = k
    · exact Or.inr hx
    · rw [dGet_ensureKey_ne d k x hx] at hl
      exact Or.inl ((mem_dKeys_iff _ x).mpr ⟨l, hl⟩)
  · intro h
    rcases h with h | h
    · obtain ⟨l, hl⟩ := (mem_dKeys_iff _ x).mp h
      by_cases hx : x = k
      · subst hx
        exact (mem_dKeys_iff _ x).mpr ⟨_, dGet_ensureKey_self d x⟩
      · rw [← dGet_ensureKey_ne d k x hx] at hl
        exact (mem_dKeys_iff _ x).mpr ⟨l, hl⟩
    · subst h
      exact (mem_dKeys_iff _ x).mpr ⟨_, dGet_ensureKey_self d x⟩

theorem mem_dKeys_add_edge_iff (g : WGraph) (u v x : ℕ) (w : ℤ) (b : Bool) :
    x ∈ dKeys (add_edge g u v w b) ↔ x ∈ dKeys g ∨ x = u ∨ x = v := by
  unfold add_edge
  cases b with
  | true => simp [mem_dKeys_adjPush_iff]; tauto
  | false => simp [mem_dKeys_ensureKey_iff, mem_dKeys_adjPush_iff]; tauto

theorem add_edge_closed {g : WGraph} (hc : Closed g) (u v : ℕ) (w : ℤ)
    (b : Bool) : Closed (add_edge g u v w b) := by
  intro x l hl p hp
  have hp' : p ∈ adjOf (add_edge g u v w b) x := by
    unfold adjOf
    rw [hl]
    simpa using hp
  rcases mem_adjOf_add_edge hp' with h | h | h
  · unfold adjOf at h
    cases hg : dGet g x with
    | none => rw [hg] at h; simp at h
    | some l0 =>
        rw [hg] at h
        simp only [Option.getD_some] at h
        have := hc x l0 hg p h
        rw [mem_dKeys_add_edge_iff]
        exact Or.inl this
  · rw [mem_dKeys_add_edge_iff, h.2]
    tauto
  · rw [mem_dKeys_add_edge_iff, h.2.1]
    tauto

theorem empty_closed : Closed ([] : WGraph) := by
  intro u l hl
  simp [dGet] at hl

theorem adjOf_ensureKey {α : Type} (d : List (ℕ × List α)) (k x : ℕ) :
    (dGet (ensureKey d k) x).getD [] = (dGet d x).getD [] := by
  by_cases hx : x = k
  · subst hx
    rw [dGet_ensureKey_self]
    rfl
  · rw [dGet_ensureKey_ne d k x hx]

theorem mem_adjOf_adjPush_of_mem {α : Type} {d : List (ℕ × List α)} {x : ℕ}
    {p : α} (k : ℕ) (e : α) (h : p ∈ (dGet d x).getD []) :
    p ∈ (dGet (adjPush d k e) x).getD [] := by
  by_cases hx : x = k
  · subst hx
    rw [dGet_adjPush_self]
    simp only [Option.getD_some, List.mem_append]
    exact Or.inl h
  · rw [dGet_adjPush_ne d k x e hx]
    exact h

theorem mem_adjOf_add_edge_of_mem {g : WGraph} {x : ℕ} {p : ℕ × ℤ}
    (u v : ℕ) (w : ℤ) (b : Bool) (h : p ∈ adjOf g x) :
    p ∈ adjOf (add_edge g u v w b) x := by
  unfold adjOf at h ⊢
  unfold add_edge
  cases b with
  | true =>
      simp only [if_pos]
      exact mem_adjOf_adjPush_of_mem v (u, w) (mem_adjOf_adjPush_of_mem u (v, w) h)
  | false =>
      simp only [Bool.false_eq_true, if_neg, ite_false]
      rw [adjOf_ensureKey]
      exact mem_adjOf_adjPush_of_mem u (v, w) h

theorem add_edge_mem_u (g : WGraph) (u v : ℕ) (w : ℤ) (b : Bool) :
    u ∈ dKeys (add_edge g u v w b) := by
  rw [mem_dKeys_add_edge_iff]
  tauto

theorem add_edge_mem_v (g : WGraph) (u v : ℕ) (w : ℤ) (b : Bool) :
    v ∈ dKeys (add_edge g u v w b) := by
  rw [mem_dKeys_add_edge_iff]
  tauto

theorem add_edge_fwd_mem (g : WGraph) (u v : ℕ) (w : ℤ) :
    (v, w) ∈ adjOf (add_edge g u v w true) u := by
  unfold add_edge adjOf
  simp only [if_pos]
  apply mem_adjOf_adjPush_of_mem
  rw [dGet_adjPush_self]
  simp

theorem add_edge_bwd_mem (g : WGraph) (u v : ℕ) (w : ℤ) :
    (u, w) ∈ adjOf (add_edge g u v w true) v := by
  unfold add_edge adjOf
  simp only [if_pos]
  rw [dGet_adjPush_self]
  simp

/-- Building a graph from a sequence of add_edge calls on the empty graph. -/
def buildGraph (ops : List (ℕ × ℕ × ℤ × Bool)) : WGraph :=
  ops.foldl (fun g o => add_edge g o.1 o.2.1 o.2.2.1 o.2.2.2) []

theorem foldl_add_edge_mem_keys {ops : List (ℕ × ℕ × ℤ × Bool)} {g : WGraph}
    {x : ℕ} (h : x ∈ dKeys g) :
    x ∈ dKeys (ops.foldl (fun g o => add_edge g o.1 o.2.1 o.2.2.1 o.2.2.2) g) := by
  induction ops generalizing g with
  | nil => exact h
  | cons o rest ih =>
      apply ih
      rw [mem_dKeys_add_edge_iff]
      exact Or.inl h

theorem foldl_add_edge_mem_adj {ops : List (ℕ × ℕ × ℤ × Bool)} {g : WGraph}
    {x : ℕ} {p : ℕ × ℤ} (h : p ∈ adjOf g x) :
    p ∈ adjOf (ops.foldl (fun g o => add_edge g o.1 o.2.1 o.2.2.1 o.2.2.2) g) x := by
  induction ops generalizing g with
  | nil => exact h
  | cons o rest ih => exact ih (mem_adjOf_add_edge_of_mem _ _ _ _ h)

theorem buildGraph_closed (ops : List (ℕ × ℕ × ℤ × Bool)) :
    Closed (buildGraph ops) := by
  unfold buildGraph
  have : ∀ (l : List (ℕ × ℕ × ℤ × Bool)) (g : WGraph), Closed g →
      Closed (l.foldl (fun g o => add_edge g o.1 o.2.1 o.2.2.1 o.2.2.2) g) := by
    intro l
    induction l with
    | nil => intro g hg; exact hg
    | cons o rest ih =>
        intro g hg
        exact ih _ (add_edge_closed hg _ _ _ _)
  exact this ops [] empty_closed

theorem count_adjOf_add_edge_u (g : WGraph) (u v : ℕ) (w : ℤ) :
    (adjOf g u).count (v, w) + 1 ≤ (adjOf (add_edge g u v w true) u).count (v, w) := by
  unfold add_edge adjOf
  simp only [if_pos]
  by_cases huv : v = u
  · subst huv
    rw [dGet_adjPush_self, Option.getD_some, dGet_adjPush_self, Option.getD_some]
    simp [List.count_append]
  · rw [dGet_adjPush_ne _ v u _ (fun hh => huv hh.symm), dGet_adjPush_self,
      Option.getD_some]
    simp [List.count_append]

theorem count_adjOf_add_edge_v (g : WGraph) (u v : ℕ) (w : ℤ) :
    (adjOf g v).count (u, w) + 1 ≤ (adjOf (add_edge g u v w true) v).count (u, w) := by
  unfold add_edge adjOf
  simp only [if_pos]
  rw [dGet_adjPush_self, Option.getD_some]
  simp only [List.count_append]
  by_cases huv : v = u
  · subst huv
    rw [dGet_adjPush_self, Option.getD_some]
    simp [List.count_append]
  · rw [dGet_adjPush_ne _ u v _ huv]
    simp

/-! ## The Dijkstra loop invariant

S is the ghost list of settled vertices in settle order; R is the sublist of
settled vertices whose outgoing edges have all been relaxed (R = S except in
the middle of the neighbor loop, where the vertex being processed is settled
but not yet fully relaxed). -/

structure DInv2 (g : WGraph) (start : ℕ) (S R : List ℕ) (st : DState) : Prop where
  distKeys : dKeys st.dist = dKeys g
  prevKeys : dKeys st.prev = dKeys g
  snodup : S.Nodup
  ssub : ∀ u ∈ S, u ∈ dKeys g
  startZero : dGet st.dist start = some 0
  sound : ∀ v d, dGet st.dist v = some d → d = ⊤ ∨
    ∃ steps, CostWalk g start steps v ∧ ((wcost steps : ℤ) : WithTop ℤ) = d
  heapWalk : ∀ e ∈ st.heap, e.2 ∈ dKeys g ∧
    ∃ steps, CostWalk g start steps e.2 ∧ wcost steps = e.1
  heapLb : ∀ e ∈ st.heap, ∀ d, dGet st.dist e.2 = some d → d ≤ (e.1 : WithTop ℤ)
  settledMin : ∀ u ∈ S, ∃ k : ℤ, dGet st.dist u = some (k : WithTop ℤ) ∧
    IsMinDist g start u k
  settledRelaxed : ∀ u ∈ R, ∀ l, dGet g u = some l → ∀ p ∈ l,
    ∀ du dv, dGet st.dist u = some du → dGet st.dist p.1 = some dv →
    dv ≤ du + (p.2 : WithTop ℤ)
  curCount : ∀ v ∈ dKeys g, v ∉ S → ∀ k : ℤ,
    dGet st.dist v = some (k : WithTop ℤ) → st.heap.count (k, v) = 1
  settledStale : ∀ u ∈ S, ∀ k : ℤ, (k, u) ∈ st.heap →
    ∀ du, dGet st.dist u = some du → du < (k : WithTop ℤ)
  prevSome : ∀ v ∈ dKeys g, ∃ o, dGet st.prev v = some o
  prevNoneIff : ∀ v o, dGet st.prev v = some o →
    (o = none ↔ (dGet st.dist v = some ⊤ ∨ v = start))
  prevEdge : ∀ v u, dGet st.prev v = some (some u) → u ∈ S ∧
    (v ∈ S → S.indexOf u < S.indexOf v) ∧
    ∃ l w, dGet g u = some l ∧ (v, w) ∈ l

/-- The stable invariant between loop iterations. -/
def DInv (g : WGraph) (start : ℕ) (S : List ℕ) (st : DState) : Prop :=
  DInv2 g start S S st

theorem dinv_init (g : WGraph) (start : ℕ) (hs : start ∈ dKeys g) :
    DInv g start [] ⟨initDist g start, initPrev g, [(0, start)]⟩ := by
  have hkeys : dKeys (initDist g start) = dKeys g := by
    unfold initDist vertices
    rw [dKeys_dSet_of_mem]
    · exact dKeys_map_const _ _
    · rw [dKeys_map_const]
      exact hs
  have hget : ∀ v, dGet (initDist g start) v =
      if v = start then some 0 else (if v ∈ dKeys g then some ⊤ else none) := by
    intro v
    by_cases hv : v = start
    · subst hv
      simp [initDist, dGet_dSet_self]
    · unfold initDist vertices
      rw [dGet_dSet_ne _ _ _ _ hv, dGet_map_const]
      simp [hv]
  refine ⟨hkeys, ?_, List.nodup_nil, by simp, ?_, ?_, ?_, ?_, by simp, by simp,
    ?_, by simp, ?_, ?_, ?_⟩
  · unfold initPrev vertices
    exact dKeys_map_const _ _
  · rw [hget]
    simp
  · intro v d hd
    rw [hget] at hd
    by_cases hv : v = start
    · subst hv
      rw [if_pos rfl] at hd
      right
      refine ⟨[], CostWalk.nil v, ?_⟩
      simp only [Option.some.injEq] at hd
      rw [← hd]
      simp [wcost]
    · rw [if_neg hv] at hd
      by_cases hk : v ∈ dKeys g
      · rw [if_pos hk] at hd
        simp only [Option.some.injEq] at hd
        exact Or.inl hd.symm
      · rw [if_neg hk] at hd
        exact absurd hd (by simp)
  · intro e he
    simp only [List.mem_singleton] at he
    subst he
    refine ⟨hs, [], CostWalk.nil start, by simp [wcost]⟩
  · intro e he d hd
    simp only [List.mem_singleton] at he
    subst he
    rw [hget] at hd
    have hc : (((0 : ℤ), start).2 : ℕ) = start := rfl
    rw [if_pos hc] at hd
    simp only [Option.some.injEq] at hd
    have hd0 : d = 0 := hd.symm
    subst hd0
    simp
  · intro v _hv _hs k hk
    rw [hget] at hk
    by_cases hv : v = start
    · subst hv
      rw [if_pos rfl] at hk
      simp only [Option.some.injEq] at hk
      have : k = 0 := by exact_mod_cast hk.symm
      subst this
      simp
    · rw [if_neg hv] at hk
      by_cases hm : v ∈ dKeys g
      · rw [if_pos hm] at hk
        simp only [Option.some.injEq] at hk
        exact absurd hk.symm (by simp)
      · rw [if_neg hm] at hk
        exact absurd hk (by simp)
  · intro v hv
    unfold initPrev vertices
    rw [dGet_map_const]
    exact ⟨none, by simp [hv]⟩
  · intro v o ho
    unfold initPrev vertices at ho
    rw [dGet_map_const] at ho
    by_cases hv : v ∈ dKeys g
    · rw [if_pos hv] at ho
      simp only [Option.some.injEq] at ho
      subst ho
      simp only [true_iff]
      by_cases hvs : v = start
      · exact Or.inr hvs
      · left
        rw [hget]
        simp [hvs, hv]
    · rw [if_neg hv] at ho
      exact absurd ho (by simp)
  · intro v u hvu
    unfold initPrev vertices at hvu
    rw [dGet_map_const] at hvu
    by_cases hv : v ∈ dKeys g
    · rw [if_pos hv] at hvu
      simp at hvu
    · rw [if_neg hv] at hvu
      exact absurd hvu (by simp)

/-! ## The cover lemma: the minimum heap key bounds every walk cost below
any still-improvable distance -/

theorem dinv_cover {g : WGraph} {start : ℕ} {S : List ℕ} {st : DState}
    (inv : DInv g start S st) (hc : Closed g) (hn : Nonneg g)
    (hs : start ∈ dKeys g) (k : ℤ) (hmin : ∀ e ∈ st.heap, k ≤ e.1) :
    ∀ steps (v : ℕ) (dv : WithTop ℤ), CostWalk g start steps v →
      dGet st.dist v = some dv →
      dv ≤ ((wcost steps : ℤ) : WithTop ℤ) ∨ k ≤ wcost steps := by
  intro steps
  induction steps using List.reverseRecOn with
  | nil =>
      intro v dv hw hd
      cases hw
      rw [inv.startZero] at hd
      simp only [Option.some.injEq] at hd
      subst hd
      left
      simp [wcost]
  | append_singleton l e ih =>
      intro v dv hw hd
      obtain ⟨x, lm, hwl, hgx, hem, hv⟩ := CostWalk.snoc_split hw
      subst hv
      have hxmem : x ∈ dKeys g := CostWalk.target_mem hc hwl hs
      have hxd : x ∈ dKeys st.dist := by rw [inv.distKeys]; exact hxmem
      obtain ⟨dx, hdx⟩ := (mem_dKeys_iff _ _).mp hxd
      have hw2 : (0 : ℤ) ≤ e.2 := hn _ _ hgx e hem
      have hcost : wcost (l ++ [e]) = wcost l + e.2 := by
        rw [wcost_append, wcost_cons, wcost_nil]
        ring
      rcases ih x dx hwl hdx with hcase | hcase
      · by_cases hxS : x ∈ S
        · have hrel := inv.settledRelaxed x hxS lm hgx e hem dx dv hdx hd
          left
          calc dv ≤ dx + (e.2 : WithTop ℤ) := hrel
            _ ≤ ((wcost l : ℤ) : WithTop ℤ) + (e.2 : WithTop ℤ) := by
                exact add_le_add_right hcase _
            _ = ((wcost (l ++ [e]) : ℤ) : WithTop ℤ) := by
                rw [hcost]
                exact (WithTop.coe_add _ _).symm
        · have hxt : dx ≠ ⊤ := by
            intro hh
            rw [hh] at hcase
            exact absurd hcase (by simp)
          obtain ⟨kx, hkx⟩ := WithTop.ne_top_iff_exists.mp hxt
          have hcount := inv.curCount x hxmem hxS kx (by rw [hdx, ← hkx])
          have hmem2 : (kx, x) ∈ st.heap := by
            have : 0 < st.heap.count (kx, x) := by omega
            exact List.count_pos_iff.mp this
          have hk1 : k ≤ kx := hmin _ hmem2
          have hk2 : kx ≤ wcost l := by
            rw [← hkx] at hcase
            exact_mod_cast hcase
          right
          rw [hcost]
          omega
      · right
        rw [hcost]
        omega

/-! ## Relaxation preserves the invariant -/

theorem relax_update_inv {g : WGraph} {start : ℕ} {S : List ℕ} {st : DState}
    {u v : ℕ} {k w : ℤ} {lu : List (ℕ × ℤ)} {dv : WithTop ℤ}
    (hc : Closed g) (hn : Nonneg g)
    (inv : DInv2 g start (S ++ [u]) S st)
    (huk : dGet st.dist u = some ((k : ℤ) : WithTop ℤ))
    (humin : IsMinDist g start u k)
    (hgu : dGet g u = some lu) (hp : (v, w) ∈ lu)
    (hdv : dGet st.dist v = some dv)
    (hlt : (((k + w : ℤ)) : WithTop ℤ) < dv) :
    DInv2 g start (S ++ [u]) S
      ⟨dSet st.dist v ((k + w : ℤ) : WithTop ℤ),
       dSet st.prev v (some u),
       st.heap ++ [(k + w, v)]⟩ := by
  have hvkeys : v ∈ dKeys g := hc u lu hgu (v, w) hp
  have hwv : 0 ≤ w := hn u lu hgu (v, w) hp
  -- a walk to v of cost exactly k + w, through the settled minimum walk to u
  have hwalkv : ∃ steps, CostWalk g start steps v ∧ wcost steps = k + w := by
    obtain ⟨⟨su, hsu, _, hcu⟩, _⟩ := humin
    refine ⟨su ++ [(v, w)], ?_, ?_⟩
    · exact CostWalk.append hsu (CostWalk.cons hgu hp (CostWalk.nil v))
    · rw [wcost_append, wcost_cons, wcost_nil, hcu]
      ring
  have hknn : 0 ≤ k := by
    obtain ⟨⟨su, hsu, _, hcu⟩, _⟩ := humin
    have := wcost_nonneg hn hsu
    omega
  -- the update target is never settled
  have hvS : v ∉ S ++ [u] := by
    intro hvmem
    obtain ⟨kv, hkv, hminv⟩ := inv.settledMin v hvmem
    rw [hdv] at hkv
    simp only [Option.some.injEq] at hkv
    obtain ⟨sv, hsv, hcv⟩ := hwalkv
    have hle : kv ≤ k + w := hcv ▸ hminv.2 sv hsv
    rw [hkv] at hlt
    have : k + w < kv := by exact_mod_cast hlt
    omega
  have hvne : ∀ x, x ∈ S ++ [u] → x ≠ v := fun x hx hh => hvS (hh ▸ hx)
  have hvdd : v ∈ dKeys st.dist := by rw [inv.distKeys]; exact hvkeys
  have hvdp : v ∈ dKeys st.prev := by rw [inv.prevKeys]; exact hvkeys
  have hvnstart : v ≠ start := by
    intro hh
    subst hh
    rw [inv.startZero] at hdv
    simp only [Option.some.injEq] at hdv
    subst hdv
    have : ((0 : ℤ) : WithTop ℤ) ≤ ((k + w : ℤ) : WithTop ℤ) := by
      exact_mod_cast (by omega : (0:ℤ) ≤ k + w)
    rw [WithTop.coe_zero] at this
    exact absurd (lt_of_le_of_lt this hlt) (lt_irrefl _)
  have hgetd : ∀ x, dGet (dSet st.dist v ((k + w : ℤ) : WithTop ℤ)) x =
      if x = v then some ((k + w : ℤ) : WithTop ℤ) else dGet st.dist x := by
    intro x
    by_cases hx : x = v
    · subst hx; simp [dGet_dSet_self]
    · simp [hx, dGet_dSet_ne _ _ _ _ hx]
  have hgetp : ∀ x, dGet (dSet st.prev v (some u)) x =
      if x = v then some (some u) else dGet st.prev x := by
    intro x
    by_cases hx : x = v
    · subst hx; simp [dGet_dSet_self]
    · simp [hx, dGet_dSet_ne _ _ _ _ hx]
  refine ⟨?_, ?_, inv.snodup, inv.ssub, ?_, ?_, ?_, ?_, ?_, ?_, ?_, ?_, ?_, ?_, ?_⟩
  · rw [dKeys_dSet_of_mem _ _ _ hvdd]; exact inv.distKeys
  · rw [dKeys_dSet_of_mem _ _ _ hvdp]; exact inv.prevKeys
  · rw [hgetd]
    rw [if_neg (fun hh => hvnstart hh.symm)]
    exact inv.startZero
  · intro x d hd
    rw [hgetd] at hd
    by_cases hx : x = v
    · rw [if_pos hx] at hd
      simp only [Option.some.injEq] at hd
      subst hx
      right
      obtain ⟨sv, hsv, hcv⟩ := hwalkv
      exact ⟨sv, hsv, by rw [hcv, ← hd]⟩
    · rw [if_neg hx] at hd
      exact inv.sound x d hd
  · intro e he
    rcases List.mem_append.mp he with he | he
    · exact inv.heapWalk e he
    · simp only [List.mem_singleton] at he
      subst he
      exact ⟨hvkeys, hwalkv⟩
  · intro e he d hd
    rw [hgetd] at hd
    rcases List.mem_append.mp he with he | he
    · by_cases hx : e.2 = v
      · rw [if_pos hx] at hd
        simp only [Option.some.injEq] at hd
        subst hd
        have hthis := inv.heapLb e he dv (hx.symm ▸ hdv)
        exact le_trans (le_of_lt hlt) hthis
      · rw [if_neg hx] at hd
        exact inv.heapLb e he d hd
    · simp only [List.mem_singleton] at he
      subst he
      have hcc : (((k + w : ℤ), v).2 : ℕ) = v := rfl
      rw [if_pos hcc] at hd
      simp only [Option.some.injEq] at hd
      subst hd
      exact le_refl _
  · intro x hx
    obtain ⟨kx, hkx, hminx⟩ := inv.settledMin x hx
    refine ⟨kx, ?_, hminx⟩
    rw [hgetd, if_neg (hvne x hx)]
    exact hkx
  · intro x hx l hl p hpl du0 dv0 hdu0 hdv0
    have hxS : x ∈ S ++ [u] := List.mem_append.mpr (Or.inl hx)
    rw [hgetd, if_neg (hvne x hxS)] at hdu0
    rw [hgetd] at hdv0
    by_cases hpv : p.1 = v
    · rw [if_pos hpv] at hdv0
      simp only [Option.some.injEq] at hdv0
      subst hdv0
      obtain ⟨dvold, hdvold⟩ : ∃ d0, dGet st.dist p.1 = some d0 := ⟨dv, hpv ▸ hdv⟩
      have hold := inv.settledRelaxed x hx l hl p hpl du0 dvold hdu0 hdvold
      have : dvold = dv := by
        rw [hpv] at hdvold
        have h2 := hdvold.symm.trans hdv
        simpa using h2
      subst this
      exact le_trans (le_of_lt hlt) hold
    · rw [if_neg hpv] at hdv0
      exact inv.settledRelaxed x hx l hl p hpl du0 dv0 hdu0 hdv0
  · intro x hxk hxS k0 hk0
    rw [hgetd] at hk0
    by_cases hx : x = v
    · rw [if_pos hx] at hk0
      simp only [Option.some.injEq] at hk0
      have hk0' : k0 = k + w := by exact_mod_cast hk0.symm
      subst hk0'
      rw [hx, List.count_append]
      have hnotmem : ((k + w, v) : ℤ × ℕ) ∉ st.heap := by
        intro hmem
        have := inv.heapLb (k + w, v) hmem dv hdv
        exact absurd (lt_of_le_of_lt this hlt) (lt_irrefl _)
      rw [List.count_eq_zero.mpr hnotmem]
      simp
    · rw [if_neg hx] at hk0
      have hcnt := inv.curCount x hxk hxS k0 hk0
      rw [List.count_append, hcnt]
      have hnm : ((k0, x) : ℤ × ℕ) ∉ [((k + w : ℤ), v)] := by
        simp only [List.mem_singleton]
        intro hh
        exact hx (congrArg Prod.snd hh)
      rw [List.count_eq_zero.mpr hnm]
  · intro x hx k0 hk0 du0 hdu0
    rw [hgetd, if_neg (hvne x hx)] at hdu0
    rcases List.mem_append.mp hk0 with hk0 | hk0
    · exact inv.settledStale x hx k0 hk0 du0 hdu0
    · simp only [List.mem_singleton, Prod.mk.injEq] at hk0
      exact absurd hk0.2 (hvne x hx)
  · intro x hxk
    rw [hgetp]
    by_cases hx : x = v
    · exact ⟨some u, by rw [if_pos hx]⟩
    · rw [if_neg hx]
      exact inv.prevSome x hxk
  · intro x o ho
    rw [hgetp] at ho
    rw [hgetd]
    by_cases hx : x = v
    · rw [if_pos hx] at ho
      simp only [Option.some.injEq] at ho
      subst ho
      rw [if_pos hx]
      constructor
      · intro hh
        exact absurd hh (by simp)
      · intro hh
        rcases hh with hh | hh
        · simp only [Option.some.injEq] at hh
          exact absurd hh WithTop.coe_ne_top
        · exact absurd (hx ▸ hh) hvnstart
    · rw [if_neg hx] at ho
      rw [if_neg hx]
      exact inv.prevNoneIff x o ho
  · intro x u0 hu0
    rw [hgetp] at hu0
    by_cases hx : x = v
    · rw [if_pos hx] at hu0
      simp only [Option.some.injEq] at hu0
      have hu0' : u0 = u := by
        have := hu0.symm
        simpa using this
      subst hu0'
      subst hx
      refine ⟨List.mem_append.mpr (Or.inr (by simp)), ?_, lu, w, hgu, hp⟩
      intro hxS
      exact absurd hxS hvS
    · rw [if_neg hx] at hu0
      exact inv.prevEdge x u0 hu0

theorem relax_target_not_settled {g : WGraph} {start : ℕ} {S : List ℕ}
    {st : DState} {u v : ℕ} {k w : ℤ} {lu : List (ℕ × ℤ)} {dv : WithTop ℤ}
    (_hn : Nonneg g)
    (inv : DInv2 g start (S ++ [u]) S st)
    (humin : IsMinDist g start u k)
    (hgu : dGet g u = some lu) (hp : (v, w) ∈ lu)
    (hdv : dGet st.dist v = some dv)
    (hlt : (((k + w : ℤ)) : WithTop ℤ) < dv) : v ∉ S ++ [u] := by
  intro hvmem
  obtain ⟨kv, hkv, hminv⟩ := inv.settledMin v hvmem
  rw [hdv] at hkv
  simp only [Option.some.injEq] at hkv
  obtain ⟨⟨su, hsu, _, hcu⟩, _⟩ := humin
  have hsv : CostWalk g start (su ++ [(v, w)]) v :=
    CostWalk.append hsu (CostWalk.cons hgu hp (CostWalk.nil v))
  have hcv : wcost (su ++ [(v, w)]) = k + w := by
    rw [wcost_append, wcost_cons, wcost_nil, hcu]
    ring
  have hle : kv ≤ k + w := hcv ▸ hminv.2 _ hsv
  rw [hkv] at hlt
  have : k + w < kv := by exact_mod_cast hlt
  omega

theorem relaxAll_spec {g : WGraph} {start : ℕ} {S : List ℕ} {u : ℕ} {k : ℤ}
    {lu : List (ℕ × ℤ)}
    (hc : Closed g) (hn : Nonneg g)
    (hgu : dGet g u = some lu) (humin : IsMinDist g start u k) :
    ∀ (rem : List (ℕ × ℤ)) (st : DState), (∀ p ∈ rem, p ∈ lu) →
      DInv2 g start (S ++ [u]) S st →
      dGet st.dist u = some ((k : ℤ) : WithTop ℤ) →
      ∃ st2, relaxAll k u rem st = some st2 ∧
        DInv2 g start (S ++ [u]) S st2 ∧
        dGet st2.dist u = some ((k : ℤ) : WithTop ℤ) ∧
        (∀ p ∈ rem, ∀ dv2, dGet st2.dist p.1 = some dv2 →
          dv2 ≤ ((k : ℤ) : WithTop ℤ) + ((p.2 : ℤ) : WithTop ℤ)) ∧
        (∀ x dx dx2, dGet st.dist x = some dx → dGet st2.dist x = some dx2 →
          dx2 ≤ dx) ∧
        st2.heap.length ≤ st.heap.length + rem.length := by
  intro rem
  induction rem with
  | nil =>
      intro st _hrem inv huk
      refine ⟨st, rfl, inv, huk, by simp, ?_, by simp⟩
      intro x dx dx2 h1 h2
      rw [h1] at h2
      simp only [Option.some.injEq] at h2
      exact le_of_eq h2.symm
  | cons p rest ih =>
      intro st hrem inv huk
      obtain ⟨v, w⟩ := p
      have hpl : ((v, w) : ℕ × ℤ) ∈ lu := hrem (v, w) (List.mem_cons_self _ _)
      have hvkeys : v ∈ dKeys g := hc u lu hgu (v, w) hpl
      have hvdd : v ∈ dKeys st.dist := by rw [inv.distKeys]; exact hvkeys
      obtain ⟨dv, hdv⟩ := (mem_dKeys_iff _ _).mp hvdd
      by_cases hlt : (((k + w : ℤ)) : WithTop ℤ) < dv
      · -- strict improvement: assign and push
        have hvS := relax_target_not_settled hn inv humin hgu hpl hdv hlt
        have hune : u ≠ v := by
          intro hh
          exact hvS (hh ▸ List.mem_append.mpr (Or.inr (by simp)))
        set st' : DState :=
          ⟨dSet st.dist v ((k + w : ℤ) : WithTop ℤ),
           dSet st.prev v (some u),
           st.heap ++ [(k + w, v)]⟩ with hst'
        have inv' := relax_update_inv hc hn inv huk humin hgu hpl hdv hlt
        have huk' : dGet st'.dist u = some ((k : ℤ) : WithTop ℤ) := by
          rw [hst']
          simpa [dGet_dSet_ne _ _ _ _ hune] using huk
        obtain ⟨st2, hrun, inv2, huk2, hbound, hmono, hlen⟩ :=
          ih st' (fun q hq => hrem q (List.mem_cons_of_mem _ hq)) inv' huk'
        have hrun' : relaxAll k u ((v, w) :: rest) st = some st2 := by
          unfold relaxAll
          rw [hdv]
          simp only [if_pos hlt]
          exact hrun
        have hmono' : ∀ x dx dx2, dGet st.dist x = some dx →
            dGet st2.dist x = some dx2 → dx2 ≤ dx := by
          intro x dx dx2 h1 h2
          by_cases hx : x = v
          · subst hx
            rw [hdv] at h1
            simp only [Option.some.injEq] at h1
            subst h1
            have hmid : dGet st'.dist x = some ((k + w : ℤ) : WithTop ℤ) := by
              rw [hst']
              simp [dGet_dSet_self]
            have := hmono x _ dx2 hmid h2
            exact le_trans this (le_of_lt hlt)
          · have hmid : dGet st'.dist x = dGet st.dist x := by
              rw [hst']
              simpa using dGet_dSet_ne st.dist v x _ hx
            exact hmono x dx dx2 (by rw [hmid]; exact h1) h2
        refine ⟨st2, hrun', inv2, huk2, ?_, hmono', ?_⟩
        · intro q hq dv2 hdv2
          rcases List.mem_cons.mp hq with hq | hq
          · subst hq
            have hmid : dGet st'.dist v = some ((k + w : ℤ) : WithTop ℤ) := by
              rw [hst']
              simp [dGet_dSet_self]
            have := hmono _ _ dv2 hmid hdv2
            calc dv2 ≤ ((k + w : ℤ) : WithTop ℤ) := this
              _ = ((k : ℤ) : WithTop ℤ) + ((w : ℤ) : WithTop ℤ) := WithTop.coe_add _ _
          · exact hbound q hq dv2 hdv2
        · have : st'.heap.length = st.heap.length + 1 := by
            rw [hst']
            simp
          simp only [List.length_cons]
          omega
      · -- no improvement: state unchanged for this edge
        obtain ⟨st2, hrun, inv2, huk2, hbound, hmono, hlen⟩ :=
          ih st (fun q hq => hrem q (List.mem_cons_of_mem _ hq)) inv huk
        have hrun' : relaxAll k u ((v, w) :: rest) st = some st2 := by
          unfold relaxAll
          rw [hdv]
          simp only [if_neg hlt]
          exact hrun
        refine ⟨st2, hrun', inv2, huk2, ?_, hmono, ?_⟩
        · intro q hq dv2 hdv2
          rcases List.mem_cons.mp hq with hq | hq
          · subst hq
            have h1 := hmono _ _ dv2 hdv hdv2
            have h2 : dv ≤ (((k + w : ℤ)) : WithTop ℤ) := not_lt.mp hlt
            calc dv2 ≤ dv := h1
              _ ≤ ((k + w : ℤ) : WithTop ℤ) := h2
              _ = ((k : ℤ) : WithTop ℤ) + ((w : ℤ) : WithTop ℤ) := WithTop.coe_add _ _
          · exact hbound q hq dv2 hdv2
        · simp only [List.length_cons]
          omega

/-! ## Settling a popped vertex -/

theorem dinv_settle {g : WGraph} {start : ℕ} {S : List ℕ} {st : DState}
    {k : ℤ} {u : ℕ} {du : WithTop ℤ}
    (inv : DInv g start S st) (hc : Closed g) (hn : Nonneg g)
    (hs : start ∈ dKeys g)
    (hmem : (k, u) ∈ st.heap)
    (hmin : ∀ e ∈ st.heap, k ≤ e.1)
    (hdu : dGet st.dist u = some du)
    (hnost : ¬ du < ((k : ℤ) : WithTop ℤ)) :
    u ∈ dKeys g ∧ u ∉ S ∧ du = ((k : ℤ) : WithTop ℤ) ∧ IsMinDist g start u k ∧
    DInv2 g start (S ++ [u]) S ⟨st.dist, st.prev, st.heap.erase (k, u)⟩ := by
  have hukeys : u ∈ dKeys g := (inv.heapWalk (k, u) hmem).1
  have hduk : du = ((k : ℤ) : WithTop ℤ) :=
    le_antisymm (inv.heapLb (k, u) hmem du hdu) (not_lt.mp hnost)
  have huS : u ∉ S := by
    intro hu
    exact hnost (hduk ▸ inv.settledStale u hu k hmem du hdu)
  have humin : IsMinDist g start u k := by
    have hlb : ∀ steps, CostWalk g start steps u → k ≤ wcost steps := by
      intro steps hw
      rcases dinv_cover inv hc hn hs k hmin steps u du hw hdu with hcase | hcase
      · rw [hduk] at hcase
        exact_mod_cast hcase
      · exact hcase
    obtain ⟨_, su, hsu, hcu⟩ := inv.heapWalk (k, u) hmem
    obtain ⟨su2, hsu2, hnd2, hcu2⟩ := exists_nodup_walk hn hsu
    rw [hcu] at hcu2
    have := hlb su2 hsu2
    exact ⟨⟨su2, hsu2, hnd2, by omega⟩, hlb⟩
  have hcount := inv.curCount u hukeys huS k (by rw [hdu, hduk])
  refine ⟨hukeys, huS, hduk, humin, ?_⟩
  refine ⟨inv.distKeys, inv.prevKeys, ?_, ?_, inv.startZero, inv.sound, ?_, ?_,
    ?_, inv.settledRelaxed, ?_, ?_, inv.prevSome, inv.prevNoneIff, ?_⟩
  · rw [List.nodup_append]
    exact ⟨inv.snodup, List.nodup_singleton u, by simpa using huS⟩
  · intro x hx
    rcases List.mem_append.mp hx with hx | hx
    · exact inv.ssub x hx
    · simp only [List.mem_singleton] at hx
      subst hx
      exact hukeys
  · intro e he
    exact inv.heapWalk e (List.mem_of_mem_erase he)
  · intro e he d hd
    exact inv.heapLb e (List.mem_of_mem_erase he) d hd
  · intro x hx
    rcases List.mem_append.mp hx with hx | hx
    · exact inv.settledMin x hx
    · simp only [List.mem_singleton] at hx
      subst hx
      exact ⟨k, by rw [hdu, hduk], humin⟩
  · intro v hv hvS k0 hk0
    have hvS' : v ∉ S := fun hh => hvS (List.mem_append.mpr (Or.inl hh))
    have hvu : v ≠ u := by
      intro hh
      exact hvS (hh ▸ List.mem_append.mpr (Or.inr (by simp)))
    have hold := inv.curCount v hv hvS' k0 hk0
    have hne : ((k0, v) : ℤ × ℕ) ≠ (k, u) := by
      intro hh
      exact hvu (congrArg Prod.snd hh)
    rw [List.count_erase_of_ne hne]
    exact hold
  · intro x hx k0 hk0 d0 hd0
    rcases List.mem_append.mp hx with hx | hx
    · exact inv.settledStale x hx k0 (List.mem_of_mem_erase hk0) d0 hd0
    · simp only [List.mem_singleton] at hx
      subst hx
      rw [hdu] at hd0
      simp only [Option.some.injEq] at hd0
      subst hd0
      rw [hduk]
      have hk0k : k0 ≠ k := by
        intro hh
        subst hh
        have : st.heap.count ((k0, x) : ℤ × ℕ) = 1 := hcount
        have h0 : (st.heap.erase ((k0, x) : ℤ × ℕ)).count ((k0, x) : ℤ × ℕ) = 0 := by
          rw [List.count_erase_self]
          omega
        have : ((k0, x) : ℤ × ℕ) ∉ st.heap.erase ((k0, x) : ℤ × ℕ) :=
          List.count_eq_zero.mp h0
        exact this hk0
      have hle : k ≤ k0 := hmin _ (List.mem_of_mem_erase hk0)
      exact_mod_cast lt_of_le_of_ne hle (fun hh => hk0k hh.symm)
  · intro x u0 hu0
    obtain ⟨hu0S, hidx, hedge⟩ := inv.prevEdge x u0 hu0
    refine ⟨List.mem_append.mpr (Or.inl hu0S), ?_, hedge⟩
    intro hxmem
    rcases List.mem_append.mp hxmem with hx | hx
    · rw [List.indexOf_append_of_mem hu0S, List.indexOf_append_of_mem hx]
      exact hidx hx
    · simp only [List.mem_singleton] at hx
      subst hx
      rw [List.indexOf_append_of_mem hu0S, List.indexOf_append_of_not_mem huS]
      have := List.indexOf_lt_length.mpr hu0S
      simp only [List.indexOf_cons_self]
      omega

/-! ## Skipping a stale entry -/

theorem dinv_stale {g : WGraph} {start : ℕ} {S : List ℕ} {st : DState}
    {k : ℤ} {u : ℕ} {du : WithTop ℤ}
    (inv : DInv g start S st)
    (hdu : dGet st.dist u = some du)
    (hst : du < ((k : ℤ) : WithTop ℤ)) :
    DInv g start S ⟨st.dist, st.prev, st.heap.erase (k, u)⟩ := by
  refine ⟨inv.distKeys, inv.prevKeys, inv.snodup, inv.ssub, inv.startZero,
    inv.sound, ?_, ?_, inv.settledMin, inv.settledRelaxed, ?_, ?_,
    inv.prevSome, inv.prevNoneIff, inv.prevEdge⟩
  · intro e he
    exact inv.heapWalk e (List.mem_of_mem_erase he)
  · intro e he d hd
    exact inv.heapLb e (List.mem_of_mem_erase he) d hd
  · intro v hv hvS k0 hk0
    have hold := inv.curCount v hv hvS k0 hk0
    have hne : ((k0, v) : ℤ × ℕ) ≠ (k, u) := by
      intro hh
      have h1 : k0 = k := congrArg Prod.fst hh
      have h2 : v = u := congrArg Prod.snd hh
      subst h1
      subst h2
      rw [hk0] at hdu
      simp only [Option.some.injEq] at hdu
      rw [← hdu] at hst
      exact absurd hst (lt_irrefl _)
    rw [List.count_erase_of_ne hne]
    exact hold
  · intro x hx k0 hk0 d0 hd0
    exact inv.settledStale x hx k0 (List.mem_of_mem_erase hk0) d0 hd0

/-! ## Exit analysis: empty heap means every entry of dist is settled -/

theorem dGet_some_mem_dKeys {α : Type} {d : List (ℕ × α)} {k : ℕ} {a : α}
    (h : dGet d k = some a) : k ∈ dKeys d := (mem_dKeys_iff d k).mpr ⟨a, h⟩

theorem dinv_final {g : WGraph} {start : ℕ} {S : List ℕ} {st : DState}
    (inv : DInv g start S st) (hc : Closed g) (hn : Nonneg g)
    (hs : start ∈ dKeys g) (hempty : st.heap = []) :
    ∀ v dv, dGet st.dist v = some dv →
      (dv = ⊤ ∧ ¬ Reach g start v) ∨
      (∃ kv : ℤ, dv = ((kv : ℤ) : WithTop ℤ) ∧ IsMinDist g start v kv ∧ v ∈ S) := by
  have hub : ∀ steps (v : ℕ) (dv : WithTop ℤ), CostWalk g start steps v →
      dGet st.dist v = some dv → dv ≤ ((wcost steps : ℤ) : WithTop ℤ) := by
    intro steps v dv hw hd
    have hmin : ∀ e ∈ st.heap, wcost steps + 1 ≤ e.1 := by
      rw [hempty]
      intro e he
      exact absurd he (List.not_mem_nil e)
    rcases dinv_cover inv hc hn hs (wcost steps + 1) hmin steps v dv hw hd with
      hcase | hcase
    · exact hcase
    · omega
  intro v dv hd
  cases dv with
  | top =>
      left
      refine ⟨rfl, ?_⟩
      rintro ⟨steps, hw⟩
      have := hub steps v ⊤ hw hd
      have h2 : ((wcost steps : ℤ) : WithTop ℤ) ≠ ⊤ := WithTop.coe_ne_top
      exact h2 (top_le_iff.mp this)
  | coe kv =>
      right
      refine ⟨kv, rfl, ?_, ?_⟩
      · rcases inv.sound v _ hd with hh | hh
        · exact absurd hh (by simp)
        · obtain ⟨sv, hsv, hcv⟩ := hh
          have hcv' : wcost sv = kv := by exact_mod_cast hcv
          obtain ⟨sv2, hsv2, hnd2, hcv2⟩ := exists_nodup_walk hn hsv
          have hlb : ∀ steps, CostWalk g start steps v → kv ≤ wcost steps := by
            intro steps hw
            have := hub steps v _ hw hd
            exact_mod_cast this
          have := hlb sv2 hsv2
          exact ⟨⟨sv2, hsv2, hnd2, by omega⟩, hlb⟩
      · by_contra hvS
        have hvk : v ∈ dKeys g := by
          rw [← inv.distKeys]
          exact dGet_some_mem_dKeys hd
        have := inv.curCount v hvk hvS kv hd
        rw [hempty] at this
        simp [List.count_nil] at this

/-! ## Termination bookkeeping -/

theorem adjLen_le_totalAdj {g : WGraph} {u : ℕ} {l : List (ℕ × ℤ)}
    (h : dGet g u = some l) : l.length ≤ totalAdj g := by
  induction g with
  | nil => simp [dGet] at h
  | cons e rest ih =>
      obtain ⟨k0, l0⟩ := e
      unfold totalAdj
      simp only [List.map_cons, List.sum_cons]
      by_cases hk : k0 = u
      · rw [show dGet ((k0, l0) :: rest) u = some l0 by simp [dGet, hk]] at h
        simp only [Option.some.injEq] at h
        subst h
        omega
      · have h2 : dGet rest u = some l := by
          simpa [dGet, hk] using h
        have := ih h2
        unfold totalAdj at this
        omega

theorem nodup_sub_dedup_length {S L : List ℕ} (hnd : S.Nodup)
    (hsub : ∀ x ∈ S, x ∈ L) : S.length ≤ L.dedup.length := by
  have h1 : S.dedup.length = S.length := by rw [List.Nodup.dedup hnd]
  have h2 : S.toFinset ⊆ L.toFinset := by
    intro x hx
    rw [List.mem_toFinset] at hx ⊢
    exact hsub x hx
  have h3 := Finset.card_le_card h2
  rw [List.card_toFinset, List.card_toFinset] at h3
  omega

/-! ## Total correctness of the Dijkstra loop -/

theorem dLoop_total {g : WGraph} {start : ℕ}
    (hc : Closed g) (hn : Nonneg g) (hs : start ∈ dKeys g) :
    ∀ (fuel : ℕ) (S : List ℕ) (st : DState), DInv g start S st →
      ((dKeys g).dedup.length - S.length) * (totalAdj g + 1) + st.heap.length
        < fuel →
      ∃ S2 st2, st2.heap = [] ∧ DInv g start S2 st2 ∧
        dLoop g fuel st = some (st2.dist, st2.prev) := by
  intro fuel
  induction fuel with
  | zero =>
      intro S st _ hm
      omega
  | succ n ih =>
      intro S st inv hm
      cases hpop : popMin st.heap with
      | none =>
          have hempty : st.heap = [] := by
            unfold popMin at hpop
            cases hhm : heapMin st.heap with
            | none => exact heapMin_none_iff.mp hhm
            | some m => rw [hhm] at hpop; simp at hpop
          refine ⟨S, st, hempty, inv, ?_⟩
          unfold dLoop
          rw [hpop]
      | some pe =>
          obtain ⟨⟨k, u⟩, h2⟩ := pe
          have hpop2 : heapMin st.heap = some (k, u) ∧ h2 = st.heap.erase (k, u) := by
            unfold popMin at hpop
            cases hhm : heapMin st.heap with
            | none => rw [hhm] at hpop; simp at hpop
            | some m =>
                rw [hhm] at hpop
                simp only [Option.some.injEq, Prod.mk.injEq] at hpop
                obtain ⟨hm1, hm2⟩ := hpop
                subst hm1
                exact ⟨rfl, hm2.symm⟩
          obtain ⟨hhm, hh2⟩ := hpop2
          have hmem : ((k, u) : ℤ × ℕ) ∈ st.heap := heapMin_mem hhm
          have hminall : ∀ e ∈ st.heap, k ≤ e.1 := heapMin_le hhm
          have hheapne : 1 ≤ st.heap.length := by
            cases hhp : st.heap with
            | nil => rw [hhp] at hmem; exact absurd hmem (List.not_mem_nil _)
            | cons a l => simp [hhp]
          have hukeys : u ∈ dKeys g := (inv.heapWalk (k, u) hmem).1
          have hud : u ∈ dKeys st.dist := by rw [inv.distKeys]; exact hukeys
          obtain ⟨du, hdu⟩ := (mem_dKeys_iff _ _).mp hud
          by_cases hstale : du < ((k : ℤ) : WithTop ℤ)
          · -- stale entry: skip
            have hst' : du < (((k : ℤ)) : WithTop ℤ) := hstale
            have inv' := dinv_stale inv hdu hst'
            have hm' : ((dKeys g).dedup.length - S.length) * (totalAdj g + 1) +
                (st.heap.erase ((k, u) : ℤ × ℕ)).length < n := by
              rw [List.length_erase_of_mem hmem]
              omega
            obtain ⟨S2, st2, hemp2, inv2, hrun⟩ := ih S _ inv' hm'
            refine ⟨S2, st2, hemp2, inv2, ?_⟩
            unfold dLoop
            rw [hpop]
            simp only
            rw [hdu]
            simp only
            rw [if_pos hstale, hh2]
            exact hrun
          · -- fresh minimum: settle u, relax its neighbors
            obtain ⟨_, huS, hduk, humin, invMid⟩ :=
              dinv_settle inv hc hn hs hmem hminall hdu hstale
            obtain ⟨lu, hgu⟩ := (mem_dKeys_iff g u).mp hukeys
            have hukMid :
                dGet (⟨st.dist, st.prev, st.heap.erase ((k, u) : ℤ × ℕ)⟩ : DState).dist u
                  = some ((k : ℤ) : WithTop ℤ) := by
              simpa [hduk] using hdu
            obtain ⟨st2, hrun2, inv2, huk2, hbound, _hmono, hlen⟩ :=
              relaxAll_spec hc hn hgu humin lu _ (fun p hp => hp) invMid hukMid
            have invFull : DInv g start (S ++ [u]) st2 := by
              refine ⟨inv2.distKeys, inv2.prevKeys, inv2.snodup, inv2.ssub,
                inv2.startZero, inv2.sound, inv2.heapWalk, inv2.heapLb,
                inv2.settledMin, ?_, inv2.curCount, inv2.settledStale,
                inv2.prevSome, inv2.prevNoneIff, inv2.prevEdge⟩
              intro x hx l hl p hp du0 dv0 hdu0 hdv0
              rcases List.mem_append.mp hx with hx | hx
              · exact inv2.settledRelaxed x hx l hl p hp du0 dv0 hdu0 hdv0
              · simp only [List.mem_singleton] at hx
                subst hx
                rw [hgu] at hl
                simp only [Option.some.injEq] at hl
                subst hl
                rw [huk2] at hdu0
                simp only [Option.some.injEq] at hdu0
                subst hdu0
                exact hbound p hp dv0 hdv0
            have hsS : S.length < (dKeys g).dedup.length := by
              have h1 : (S ++ [u]).length ≤ (dKeys g).dedup.length :=
                nodup_sub_dedup_length invFull.snodup invFull.ssub
              simp only [List.length_append, List.length_singleton] at h1
              omega
            have hm2 : ((dKeys g).dedup.length - (S ++ [u]).length) *
                (totalAdj g + 1) + st2.heap.length < n := by
              have hadj : lu.length ≤ totalAdj g := adjLen_le_totalAdj hgu
              have herl : (st.heap.erase ((k, u) : ℤ × ℕ)).length =
                  st.heap.length - 1 := List.length_erase_of_mem hmem
              have hlen2 : st2.heap.length ≤ st.heap.length - 1 + lu.length := by
                have := hlen
                simp only at this
                omega
              simp only [List.length_append, List.length_singleton]
              have hsplit : ((dKeys g).dedup.length - S.length) *
                  (totalAdj g + 1) =
                  ((dKeys g).dedup.length - (S.length + 1)) * (totalAdj g + 1) +
                    (totalAdj g + 1) := by
                have : (dKeys g).dedup.length - S.length =
                    ((dKeys g).dedup.length - (S.length + 1)) + 1 := by omega
                rw [this]
                ring
              rw [hsplit] at hm
              omega
            obtain ⟨S2, st2b, hemp2, inv2b, hrun⟩ := ih (S ++ [u]) st2 invFull hm2
            refine ⟨S2, st2b, hemp2, inv2b, ?_⟩
            unfold dLoop
            rw [hpop]
            simp only
            rw [hdu]
            simp only
            rw [if_neg hstale, hgu]
            simp only
            rw [hh2, hrun2]
            exact hrun

/-- The sufficient fuel really suffices: dijkstra_heap terminates with an
invariant-satisfying final state. -/
theorem dijkstra_heap_total {g : WGraph} {start : ℕ} {fuel : ℕ}
    (hc : Closed g) (hn : Nonneg g) (hs : start ∈ dKeys g)
    (hfuel : dijkstraFuel g ≤ fuel) :
    ∃ S2 st2, st2.heap = [] ∧ DInv g start S2 st2 ∧
      dijkstra_heap g start fuel = some (st2.dist, st2.prev) := by
  have hinit := dinv_init g start hs
  have hm : ((dKeys g).dedup.length - ([] : List ℕ).length) * (totalAdj g + 1) +
      ([((0 : ℤ), start)]).length < fuel := by
    unfold dijkstraFuel at hfuel
    simp only [List.length_nil, Nat.sub_zero, List.length_singleton]
    have h1 : (dKeys g).dedup.length * (totalAdj g + 1) + 1 <
        (dKeys g).dedup.length * (totalAdj g + 1) + 2 := by omega
    omega
  exact dLoop_total hc hn hs fuel [] _ hinit hm

/-! ## From the final invariant to the user-facing contract -/

theorem walkBack_spec {g : WGraph} {start : ℕ} {S : List ℕ} {st : DState}
    (inv : DInv g start S st) :
    ∀ (fuel : ℕ) (v : ℕ), v ∈ S → S.indexOf v < fuel →
      ∃ ps, walkBack st.prev fuel v = some ps ∧ ps.head? = some v ∧
        ps.getLast? = some start := by
  intro fuel
  induction fuel with
  | zero =>
      intro v _ hidx
      omega
  | succ n ih =>
      intro v hv hidx
      have hvk : v ∈ dKeys g := inv.ssub v hv
      have hvp : v ∈ dKeys g := hvk
      obtain ⟨o, ho⟩ := inv.prevSome v hvp
      cases o with
      | none =>
          have hvstart : v = start := by
            rcases (inv.prevNoneIff v none ho).mp rfl with hh | hh
            · obtain ⟨kv, hkv, _⟩ := inv.settledMin v hv
              rw [hkv] at hh
              simp only [Option.some.injEq] at hh
              exact absurd hh.symm (by simp)
            · exact hh
          refine ⟨[v], ?_, by simp, by simp [hvstart]⟩
          unfold walkBack
          rw [ho]
      | some u =>
          obtain ⟨huS, hidxu, _⟩ := inv.prevEdge v u ho
          have hlt : S.indexOf u < n := by
            have := hidxu hv
            omega
          obtain ⟨pu, hpu, hhead, hlast⟩ := ih u huS hlt
          refine ⟨v :: pu, ?_, by simp, ?_⟩
          · unfold walkBack
            rw [ho]
            dsimp only
            rw [hpu]
            rfl
          · cases pu with
            | nil => simp at hhead
            | cons a t =>
                rw [List.getLast?_cons_cons]
                exact hlast

/-- Everything the claims need from one dijkstra_heap run: the distance map
is the exact shortest-distance table (with ⊤ on unreachable vertices) and
reconstruct_path rebuilds a start-to-target sequence exactly for reachable
targets. -/
theorem dijkstra_heap_spec {g : WGraph} {start : ℕ} {fuel : ℕ}
    (hc : Closed g) (hn : Nonneg g) (hs : start ∈ dKeys g)
    (hfuel : dijkstraFuel g ≤ fuel) :
    ∃ dist prev, dijkstra_heap g start fuel = some (dist, prev) ∧
      dKeys dist = dKeys g ∧ dKeys prev = dKeys g ∧
      (∀ v ∈ dKeys g,
        (Reach g start v →
          ∃ kv : ℤ, dGet dist v = some ((kv : ℤ) : WithTop ℤ) ∧
            IsMinDist g start v kv) ∧
        (¬ Reach g start v → dGet dist v = some ⊤)) ∧
      (∀ target ∈ dKeys g, ∀ rfuel, (dKeys g).length < rfuel →
        (Reach g start target →
          ∃ p, reconstruct_path prev start target rfuel = some (some p) ∧
            p.head? = some start ∧ p.getLast? = some target) ∧
        (¬ Reach g start target → target ≠ start →
          reconstruct_path prev start target rfuel = some none)) := by
  obtain ⟨S2, st2, hempty, inv2, hrun⟩ := dijkstra_heap_total hc hn hs hfuel
  have hfin := dinv_final inv2 hc hn hs hempty
  refine ⟨st2.dist, st2.prev, hrun, inv2.distKeys, inv2.prevKeys, ?_, ?_⟩
  · intro v hv
    have hvd : v ∈ dKeys st2.dist := by rw [inv2.distKeys]; exact hv
    obtain ⟨dv, hdv⟩ := (mem_dKeys_iff _ _).mp hvd
    constructor
    · intro hreach
      rcases hfin v dv hdv with ⟨_, hnr⟩ | ⟨kv, hkv, hmin, _⟩
      · exact absurd hreach hnr
      · exact ⟨kv, by rw [hdv, hkv], hmin⟩
    · intro hnreach
      rcases hfin v dv hdv with ⟨htop, _⟩ | ⟨kv, _, hmin, _⟩
      · rw [hdv, htop]
      · obtain ⟨⟨sv, hsv, _, _⟩, _⟩ := hmin
        exact absurd ⟨sv, hsv⟩ hnreach
  · intro target htk rfuel hrfuel
    have htd : target ∈ dKeys st2.dist := by rw [inv2.distKeys]; exact htk
    obtain ⟨dt, hdt⟩ := (mem_dKeys_iff _ _).mp htd
    have htp : target ∈ dKeys st2.prev := by rw [inv2.prevKeys]; exact htk
    obtain ⟨o, ho⟩ := (mem_dKeys_iff _ _).mp htp
    constructor
    · intro hreach
      rcases hfin target dt hdt with ⟨_, hnr⟩ | ⟨kt, hkt, _, htS⟩
      · exact absurd hreach hnr
      · have hidx : S2.indexOf target < rfuel := by
          have h1 : S2.indexOf target < S2.length :=
            List.indexOf_lt_length.mpr htS
          have h2 : S2.length ≤ (dKeys g).dedup.length :=
            nodup_sub_dedup_length inv2.snodup inv2.ssub
          have h3 : (dKeys g).dedup.length ≤ (dKeys g).length :=
            (List.dedup_sublist _).length_le
          omega
        obtain ⟨ps, hps, hhead, hlast⟩ := walkBack_spec inv2 rfuel target htS hidx
        refine ⟨ps.reverse, ?_, ?_, ?_⟩
        · unfold reconstruct_path
          rw [ho]
          dsimp only
          have hcond : ¬(o = none ∧ start ≠ target) := by
            rintro ⟨hno, hne⟩
            subst hno
            rcases (inv2.prevNoneIff target none ho).mp rfl with hh | hh
            · rw [hdt] at hh
              simp only [Option.some.injEq] at hh
              rw [hkt] at hh
              exact absurd hh.symm (by simp)
            · exact hne hh.symm
          rw [if_neg hcond, hps]
          rfl
        · rw [List.head?_reverse]
          exact hlast
        · rw [List.getLast?_reverse]
          exact hhead
    · intro hnreach hne
      have htop : dt = ⊤ := by
        rcases hfin target dt hdt with ⟨htop, _⟩ | ⟨kt, _, hmin, _⟩
        · exact htop
        · obtain ⟨⟨sv, hsv, _, _⟩, _⟩ := hmin
          exact absurd ⟨sv, hsv⟩ hnreach
      have hono : o = none := by
        apply (inv2.prevNoneIff target o ho).mpr
        left
        rw [hdt, htop]
      unfold reconstruct_path
      rw [ho]
      dsimp only
      rw [hono]
      rw [if_pos ⟨rfl, fun hh => hne hh.symm⟩]

/-! ## Monotonicity of the distance map over a run (for the invariant claim) -/

theorem initDist_start (g : WGraph) (start : ℕ) :
    dGet (initDist g start) start = some 0 := by
  unfold initDist
  exact dGet_dSet_self _ _ _

theorem initDist_other (g : WGraph) (start v : ℕ) (hv : v ∈ dKeys g)
    (hne : v ≠ start) : dGet (initDist g start) v = some ⊤ := by
  unfold initDist vertices
  rw [dGet_dSet_ne _ _ _ _ hne, dGet_map_const, if_pos hv]

theorem relaxAll_some {k : ℤ} {u : ℕ} {nbrs : List (ℕ × ℤ)} {st st2 : DState}
    (hrun : relaxAll k u nbrs st = some st2) :
    ∀ x, (dGet st.dist x).isSome → (dGet st2.dist x).isSome := by
  induction nbrs generalizing st with
  | nil =>
      unfold relaxAll at hrun
      simp only [Option.some.injEq] at hrun
      subst hrun
      exact fun x h => h
  | cons p rest ih =>
      intro x hx
      obtain ⟨v, w⟩ := p
      unfold relaxAll at hrun
      cases hdv : dGet st.dist v with
      | none => rw [hdv] at hrun; simp at hrun
      | some dv =>
          rw [hdv] at hrun
          dsimp only at hrun
          by_cases hlt : (((k + w : ℤ)) : WithTop ℤ) < dv
          · rw [if_pos hlt] at hrun
            apply ih hrun
            by_cases hxv : x = v
            · subst hxv
              rw [dGet_dSet_self]
              rfl
            · show (dGet (dSet st.dist v _) x).isSome
              rw [dGet_dSet_ne _ _ _ _ hxv]
              exact hx
          · rw [if_neg hlt] at hrun
            exact ih hrun x hx

theorem relaxAll_mono {k : ℤ} {u : ℕ} :
    ∀ (nbrs : List (ℕ × ℤ)) (st st2 : DState),
      relaxAll k u nbrs st = some st2 →
      ∀ x dx dx2, dGet st.dist x = some dx → dGet st2.dist x = some dx2 →
        dx2 ≤ dx := by
  intro nbrs
  induction nbrs with
  | nil =>
      intro st st2 hrun x dx dx2 h1 h2
      unfold relaxAll at hrun
      simp only [Option.some.injEq] at hrun
      subst hrun
      rw [h1] at h2
      simp only [Option.some.injEq] at h2
      exact le_of_eq h2.symm
  | cons p rest ih =>
      intro st st2 hrun x dx dx2 h1 h2
      obtain ⟨v, w⟩ := p
      unfold relaxAll at hrun
      cases hdv : dGet st.dist v with
      | none => rw [hdv] at hrun; simp at hrun
      | some dv =>
          rw [hdv] at hrun
          dsimp only at hrun
          by_cases hlt : (((k + w : ℤ)) : WithTop ℤ) < dv
          · rw [if_pos hlt] at hrun
            by_cases hx : x = v
            · subst hx
              have hmid : dGet (dSet st.dist x ((k + w : ℤ) : WithTop ℤ)) x =
                  some ((k + w : ℤ) : WithTop ℤ) := dGet_dSet_self _ _ _
              have := ih _ st2 hrun x _ dx2 hmid h2
              rw [hdv] at h1
              simp only [Option.some.injEq] at h1
              subst h1
              exact le_trans this (le_of_lt hlt)
            · have hmid : dGet (dSet st.dist v ((k + w : ℤ) : WithTop ℤ)) x =
                  some dx := by
                rw [dGet_dSet_ne _ _ _ _ hx]
                exact h1
              exact ih _ st2 hrun x dx dx2 hmid h2
          · rw [if_neg hlt] at hrun
            exact ih _ st2 hrun x dx dx2 h1 h2

theorem dLoop_mono {g : WGraph} :
    ∀ (fuel : ℕ) (st : DState) (dist : List (ℕ × WithTop ℤ))
      (prev : List (ℕ × Option ℕ)),
      dLoop g fuel st = some (dist, prev) →
      ∀ x dx dx2, dGet st.dist x = some dx → dGet dist x = some dx2 →
        dx2 ≤ dx := by
  intro fuel
  induction fuel with
  | zero =>
      intro st dist prev hrun
      unfold dLoop at hrun
      exact absurd hrun (by simp)
  | succ n ih =>
      intro st dist prev hrun x dx dx2 h1 h2
      unfold dLoop at hrun
      cases hpop : popMin st.heap with
      | none =>
          rw [hpop] at hrun
          simp only [Option.some.injEq, Prod.mk.injEq] at hrun
          obtain ⟨hd, _⟩ := hrun
          subst hd
          rw [h1] at h2
          simp only [Option.some.injEq] at h2
          exact le_of_eq h2.symm
      | some pe =>
          obtain ⟨⟨k, u⟩, h2p⟩ := pe
          rw [hpop] at hrun
          dsimp only at hrun
          cases hdu : dGet st.dist u with
          | none => rw [hdu] at hrun; simp at hrun
          | some du =>
              rw [hdu] at hrun
              dsimp only at hrun
              by_cases hstale : du < ((k : ℤ) : WithTop ℤ)
              · rw [if_pos hstale] at hrun
                exact ih _ dist prev hrun x dx dx2 h1 h2
              · rw [if_neg hstale] at hrun
                cases hgu : dGet g u with
                | none => rw [hgu] at hrun; simp at hrun
                | some nbrs =>
                    rw [hgu] at hrun
                    dsimp only at hrun
                    cases hrel : relaxAll k u nbrs ⟨st.dist, st.prev, h2p⟩ with
                    | none => rw [hrel] at hrun; simp at hrun
                    | some stm =>
                        rw [hrel] at hrun
                        dsimp only at hrun
                        have hsome : (dGet stm.dist x).isSome :=
                          relaxAll_some hrel x (by rw [h1]; rfl)
                        obtain ⟨dmid, hdmid⟩ := Option.isSome_iff_exists.mp hsome
                        have hm1 := relaxAll_mono nbrs _ stm hrel x dx dmid h1 hdmid
                        have hm2 := ih stm dist prev hrun x dmid dx2 hdmid h2
                        exact le_trans hm2 hm1

/-! ## BFS helper lemmas -/

/-- The last vertex of a (nonempty) partial path. -/
def pathEnd (p : List ℕ) : ℕ := p.getLastD 0

theorem getLast?_eq_pathEnd {p : List ℕ} (h : p ≠ []) :
    p.getLast? = some (pathEnd p) := by
  cases p with
  | nil => exact absurd rfl h
  | cons a t =>
      unfold pathEnd
      rw [List.getLastD_eq_getLast?]
      cases hh : (a :: t).getLast? with
      | none => simp at hh
      | some b => rfl

theorem pathEnd_append_singleton (p : List ℕ) (n : ℕ) :
    pathEnd (p ++ [n]) = n := by
  unfold pathEnd
  rw [List.getLastD_eq_getLast?, List.getLast?_concat]
  rfl

theorem exists_isMinHops {g : NGraph} {s v : ℕ} (h : NReach g s v) :
    ∃ n, IsMinHops g s v n := by
  classical
  obtain ⟨vs, hvs⟩ := h
  have hne : ∃ n, ∃ ws, NWalk g s ws v ∧ ws.length = n := ⟨vs.length, vs, hvs, rfl⟩
  refine ⟨Nat.find hne, ?_, ?_⟩
  · exact Nat.find_spec hne
  · intro ws hws
    exact Nat.find_min' hne ⟨ws, hws, rfl⟩

theorem isMinHops_pred {g : NGraph} {s v : ℕ} {n : ℕ}
    (h : IsMinHops g s v (n + 1)) :
    ∃ x l, IsMinHops g s x n ∧ dGet g x = some l ∧ v ∈ l := by
  obtain ⟨⟨vs, hvs, hlen⟩, hmin⟩ := h
  cases hvs2 : vs.getLast? with
  | none =>
      rw [List.getLast?_eq_none_iff] at hvs2
      subst hvs2
      simp at hlen
  | some lastv =>
      obtain ⟨init, hinit⟩ : ∃ init, vs = init ++ [lastv] := by
        rcases List.eq_nil_or_concat vs with hnil | ⟨l2, b, hb⟩
        · subst hnil
          simp at hvs2
        · subst hb
          simp only [List.concat_eq_append] at hvs2 ⊢
          rw [List.getLast?_concat] at hvs2
          simp only [Option.some.injEq] at hvs2
          subst hvs2
          exact ⟨l2, rfl⟩
      subst hinit
      obtain ⟨x, lm, hwx, hgx, hmem, hv⟩ := nwalk_snoc_split hvs
      subst hv
      have hlx : init.length = n := by
        simp only [List.length_append, List.length_singleton] at hlen
        omega
      have hreachx : NReach g s x := ⟨init, hwx⟩
      obtain ⟨m, hmx⟩ := exists_isMinHops hreachx
      have hm1 : m ≤ n := hlx ▸ hmx.2 init hwx
      have hm2 : n ≤ m := by
        obtain ⟨⟨ws, hws, hwl⟩, _⟩ := hmx
        have hwalkv : NWalk g s (ws ++ [v]) v :=
          nwalk_append hws (NWalk.cons hgx hmem (NWalk.nil v))
        have := hmin _ hwalkv
        simp only [List.length_append, List.length_singleton] at this
        omega
      have hmn : m = n := le_antisymm hm1 hm2
      subst hmn
      exact ⟨x, lm, hmx, hgx, hmem⟩

/-! ## The BFS expansion step -/

theorem bfsExpand_spec (path : List ℕ) :
    ∀ (ns : List ℕ) (q : List (List ℕ)) (vis ord : List ℕ),
      ∃ fresh : List ℕ,
        bfsExpand path ns q vis ord =
          (q ++ fresh.map (fun n => path ++ [n]), vis ++ fresh, ord ++ fresh) ∧
        fresh.Nodup ∧
        (∀ n ∈ fresh, n ∈ ns ∧ n ∉ vis) ∧
        (∀ n ∈ ns, n ∉ vis → n ∈ vis ++ fresh) := by
  intro ns
  induction ns with
  | nil =>
      intro q vis ord
      refine ⟨[], by simp [bfsExpand], List.nodup_nil, by simp, by simp⟩
  | cons n rest ih =>
      intro q vis ord
      by_cases hn : n ∈ vis
      · obtain ⟨fresh, heq, hnd, hmem, hcov⟩ := ih q vis ord
        refine ⟨fresh, ?_, hnd, ?_, ?_⟩
        · unfold bfsExpand
          rw [if_pos hn]
          exact heq
        · intro m hm
          obtain ⟨h1, h2⟩ := hmem m hm
          exact ⟨List.mem_cons_of_mem _ h1, h2⟩
        · intro m hm hmv
          rcases List.mem_cons.mp hm with hm | hm
          · subst hm
            exact absurd hn hmv
          · exact hcov m hm hmv
      · obtain ⟨fresh, heq, hnd, hmem, hcov⟩ :=
          ih (q ++ [path ++ [n]]) (vis ++ [n]) (ord ++ [n])
        refine ⟨n :: fresh, ?_, ?_, ?_, ?_⟩
        · unfold bfsExpand
          rw [if_neg hn]
          rw [heq]
          simp
        · rw [List.nodup_cons]
          refine ⟨?_, hnd⟩
          intro hnf
          obtain ⟨_, h2⟩ := hmem n hnf
          exact h2 (by simp)
        · intro m hm
          rcases List.mem_cons.mp hm with hm | hm
          · subst hm
            exact ⟨by simp, hn⟩
          · obtain ⟨h1, h2⟩ := hmem m hm
            refine ⟨List.mem_cons_of_mem _ h1, ?_⟩
            intro hmv
            exact h2 (by simp [hmv])
        · intro m hm hmv
          rcases List.mem_cons.mp hm with hm | hm
          · subst hm
            simp
          · by_cases hmn : m = n
            · subst hmn
              simp
            · have := hcov m hm (by simp [hmv, hmn])
              simpa using this

theorem pathEnd_mem {p : List ℕ} (h : p ≠ []) : pathEnd p ∈ p := by
  have h1 := getLast?_eq_pathEnd h
  have h2 := List.getLast_mem_getLast? h
  rw [h1] at h2
  simp only [Option.mem_def, Option.some.injEq] at h2
  rw [h2]
  exact List.getLast_mem h

/-! ## The BFS loop invariant -/

structure BInv (g : NGraph) (start goal : ℕ) (D : ℕ)
    (qa qb queue : List (List ℕ)) (vis : List ℕ) : Prop where
  qsplit : queue = qa ++ qb
  lenA : ∀ p ∈ qa, p.length = D + 1
  lenB : ∀ p ∈ qb, p.length = D + 2
  qpath : ∀ p ∈ queue, ∃ vs, p = start :: vs ∧ NWalk g start vs (pathEnd p)
  qmin : ∀ p ∈ queue, IsMinHops g start (pathEnd p) (p.length - 1)
  qvis : ∀ p ∈ queue, ∀ x ∈ p, x ∈ vis
  qlastsNodup : (queue.map pathEnd).Nodup
  startVis : start ∈ vis
  visReach : ∀ v ∈ vis, NReach g start v
  visNodup : vis.Nodup
  visKeys : ∀ v ∈ vis, v ∈ start :: dKeys g
  visProc : ∀ v ∈ vis, (∃ p ∈ queue, pathEnd p = v) ∨
    (∃ l, dGet g v = some l ∧ ∀ x ∈ l, x ∈ vis)
  levelDone : ∀ v m, IsMinHops g start v m → m < D →
    v ∈ vis ∧ ∃ l, dGet g v = some l ∧ ∀ x ∈ l, x ∈ vis
  levelCur : ∀ v, IsMinHops g start v D → v ∈ vis ∧
    ((∃ l, dGet g v = some l ∧ ∀ x ∈ l, x ∈ vis) ∨ ∃ p ∈ qa, pathEnd p = v)
  goalPending : goal ∈ vis → ∃ p ∈ queue, pathEnd p = goal

theorem binv_init {g : NGraph} {start goal : ℕ} (hs : start ∈ dKeys g) :
    BInv g start goal 0 [[start]] [] [[start]] [start] := by
  have hmin0 : IsMinHops g start start 0 := isMinHops_zero start
  refine ⟨rfl, by simp, by simp, ?_, ?_, ?_, by simp, by simp, ?_,
    by simp, by simp [hs], ?_, by simp, ?_, ?_⟩
  · intro p hp
    simp only [List.mem_singleton] at hp
    subst hp
    exact ⟨[], rfl, by simpa [pathEnd] using NWalk.nil start⟩
  · intro p hp
    simp only [List.mem_singleton] at hp
    subst hp
    simpa [pathEnd] using hmin0
  · intro p hp
    simp only [List.mem_singleton] at hp
    subst hp
    simp
  · intro v hv
    simp only [List.mem_singleton] at hv
    subst hv
    exact ⟨[], NWalk.nil v⟩
  · intro v hv
    simp only [List.mem_singleton] at hv
    subst hv
    left
    exact ⟨[v], by simp, by simp [pathEnd]⟩
  · intro v hv
    have := isMinHops_zero_eq hv
    subst this
    refine ⟨by simp, Or.inr ⟨[v], by simp, by simp [pathEnd]⟩⟩
  · intro hg
    simp only [List.mem_singleton] at hg
    subst hg
    exact ⟨[goal], by simp, by simp [pathEnd]⟩

theorem binv_norm {g : NGraph} {start goal : ℕ} {D : ℕ}
    {qb queue : List (List ℕ)} {vis : List ℕ}
    (inv : BInv g start goal D [] qb queue vis) :
    BInv g start goal (D + 1) qb [] queue vis := by
  have hdone : ∀ v, IsMinHops g start v D → v ∈ vis ∧
      ∃ l, dGet g v = some l ∧ ∀ x ∈ l, x ∈ vis := by
    intro v hv
    obtain ⟨hvv, hrest⟩ := inv.levelCur v hv
    rcases hrest with hrest | ⟨p, hp, _⟩
    · exact ⟨hvv, hrest⟩
    · exact absurd hp (List.not_mem_nil p)
  refine ⟨by simpa using inv.qsplit, inv.lenB, by simp,
    inv.qpath, inv.qmin, inv.qvis, inv.qlastsNodup, inv.startVis,
    inv.visReach, inv.visNodup, inv.visKeys, inv.visProc, ?_, ?_,
    inv.goalPending⟩
  · intro v m hv hm
    by_cases hmd : m < D
    · exact inv.levelDone v m hv hmd
    · have : m = D := by omega
      subst this
      exact hdone v hv
  · intro v hv
    obtain ⟨x, l, hx, hgx, hvl⟩ := isMinHops_pred hv
    obtain ⟨_, l2, hgx2, hsub⟩ := hdone x hx
    rw [hgx] at hgx2
    simp only [Option.some.injEq] at hgx2
    subst hgx2
    have hvvis : v ∈ vis := hsub v hvl
    refine ⟨hvvis, ?_⟩
    rcases inv.visProc v hvvis with ⟨p, hp, hpe⟩ | hproc
    · right
      refine ⟨p, ?_, hpe⟩
      rw [inv.qsplit] at hp
      simpa using hp
    · left
      exact hproc

theorem binv_step {g : NGraph} {start goal : ℕ} (hc : NClosed g)
    {D : ℕ} {qa' qb qrest : List (List ℕ)} {vis : List ℕ} {p : List ℕ}
    {nbrs fresh : List ℕ}
    (inv : BInv g start goal D (p :: qa') qb (p :: qrest) vis)
    (hnode : pathEnd p ≠ goal)
    (hnbrs : dGet g (pathEnd p) = some nbrs)
    (hfnd : fresh.Nodup)
    (hfmem : ∀ n ∈ fresh, n ∈ nbrs ∧ n ∉ vis)
    (hfcov : ∀ n ∈ nbrs, n ∉ vis → n ∈ vis ++ fresh) :
    BInv g start goal D qa' (qb ++ fresh.map (fun n => p ++ [n]))
      (qrest ++ fresh.map (fun n => p ++ [n])) (vis ++ fresh) := by
  have hq : qrest = qa' ++ qb := by
    have := inv.qsplit
    simp only [List.cons_append, List.cons.injEq] at this
    exact this.2
  have hpmem : p ∈ p :: qrest := List.mem_cons_self _ _
  obtain ⟨vs, hpvs, hpwalk⟩ := inv.qpath p hpmem
  have hpne : p ≠ [] := by rw [hpvs]; exact List.cons_ne_nil _ _
  have hplen : p.length = D + 1 := inv.lenA p (List.mem_cons_self _ _)
  have hvslen : vs.length = D := by
    rw [hpvs] at hplen
    simpa using hplen
  have hminnode : IsMinHops g start (pathEnd p) D := by
    have := inv.qmin p hpmem
    rw [hplen] at this
    simpa using this
  have hfreshwalk : ∀ n ∈ fresh, NWalk g start (vs ++ [n]) n := by
    intro n hn
    exact nwalk_append hpwalk
      (NWalk.cons hnbrs (hfmem n hn).1 (NWalk.nil n))
  have hfreshmin : ∀ n ∈ fresh, IsMinHops g start n (D + 1) := by
    intro n hn
    obtain ⟨m, hm⟩ := exists_isMinHops ⟨vs ++ [n], hfreshwalk n hn⟩
    have hup : m ≤ D + 1 := by
      have := hm.2 _ (hfreshwalk n hn)
      simp only [List.length_append, List.length_singleton] at this
      omega
    have hlow : D + 1 ≤ m := by
      by_contra hcon
      push_neg at hcon
      rcases Nat.lt_or_ge m D with hmd | hmd
      · exact (hfmem n hn).2 (inv.levelDone n m hm hmd).1
      · have : m = D := by omega
        subst this
        exact (hfmem n hn).2 (inv.levelCur n hm).1
    have : m = D + 1 := by omega
    subst this
    exact hm
  have hfreshkeys : ∀ n ∈ fresh, n ∈ dKeys g := by
    intro n hn
    exact hc _ _ hnbrs n (hfmem n hn).1
  have hdisj : ∀ x ∈ fresh, x ∉ vis := fun x hx => (hfmem x hx).2
  have hfpath : ∀ n, p ++ [n] = start :: (vs ++ [n]) := by
    intro n
    rw [hpvs]
    rfl
  have hqrvis : ∀ q ∈ qrest, ∀ x ∈ q, x ∈ vis :=
    fun q hq2 => inv.qvis q (List.mem_cons_of_mem _ hq2)
  refine ⟨?_, ?_, ?_, ?_, ?_, ?_, ?_, ?_, ?_, ?_, ?_, ?_, ?_, ?_, ?_⟩
  · rw [hq, List.append_assoc]
  · exact fun q hq2 => inv.lenA q (List.mem_cons_of_mem _ hq2)
  · intro q hq2
    rcases List.mem_append.mp hq2 with hq2 | hq2
    · exact inv.lenB q hq2
    · obtain ⟨n, _, rfl⟩ := List.mem_map.mp hq2
      simp only [List.length_append, List.length_singleton]
      omega
  · intro q hq2
    rcases List.mem_append.mp hq2 with hq2 | hq2
    · exact inv.qpath q (List.mem_cons_of_mem _ hq2)
    · obtain ⟨n, hn, rfl⟩ := List.mem_map.mp hq2
      refine ⟨vs ++ [n], hfpath n, ?_⟩
      rw [pathEnd_append_singleton]
      exact hfreshwalk n hn
  · intro q hq2
    rcases List.mem_append.mp hq2 with hq2 | hq2
    · exact inv.qmin q (List.mem_cons_of_mem _ hq2)
    · obtain ⟨n, hn, rfl⟩ := List.mem_map.mp hq2
      rw [pathEnd_append_singleton]
      have : (p ++ [n]).length - 1 = D + 1 := by
        simp only [List.length_append, List.length_singleton]
        omega
      rw [this]
      exact hfreshmin n hn
  · intro q hq2 x hx
    rcases List.mem_append.mp hq2 with hq2 | hq2
    · exact List.mem_append.mpr (Or.inl (hqrvis q hq2 x hx))
    · obtain ⟨n, hn, rfl⟩ := List.mem_map.mp hq2
      rcases List.mem_append.mp hx with hx | hx
      · exact List.mem_append.mpr (Or.inl (inv.qvis p hpmem x hx))
      · simp only [List.mem_singleton] at hx
        subst hx
        exact List.mem_append.mpr (Or.inr hn)
  · rw [List.map_append]
    have hmapf : (fresh.map (fun n => p ++ [n])).map pathEnd = fresh := by
      rw [List.map_map]
      have : (pathEnd ∘ fun n => p ++ [n]) = id := by
        funext n
        simp [Function.comp, pathEnd_append_singleton]
      rw [this, List.map_id]
    rw [hmapf]
    have hold := inv.qlastsNodup
    simp only [List.map_cons] at hold
    rw [List.nodup_cons] at hold
    rw [List.nodup_append]
    refine ⟨hold.2, hfnd, ?_⟩
    intro x hx
    obtain ⟨q, hq2, rfl⟩ := List.mem_map.mp hx
    obtain ⟨vsq, hvsq, _⟩ := inv.qpath q (List.mem_cons_of_mem _ hq2)
    have hqne : q ≠ [] := by rw [hvsq]; exact List.cons_ne_nil _ _
    have : pathEnd q ∈ vis := hqrvis q hq2 _ (pathEnd_mem hqne)
    intro hxf
    exact hdisj _ hxf this
  · exact List.mem_append.mpr (Or.inl inv.startVis)
  · intro v hv
    rcases List.mem_append.mp hv with hv | hv
    · exact inv.visReach v hv
    · exact ⟨vs ++ [v], hfreshwalk v hv⟩
  · rw [List.nodup_append]
    exact ⟨inv.visNodup, hfnd, fun x hx hxf => hdisj x hxf hx⟩
  · intro v hv
    rcases List.mem_append.mp hv with hv | hv
    · exact inv.visKeys v hv
    · exact List.mem_cons_of_mem _ (hfreshkeys v hv)
  · intro v hv
    rcases List.mem_append.mp hv with hv | hv
    · rcases inv.visProc v hv with ⟨q, hq2, hqe⟩ | ⟨l, hl, hsub⟩
      · rcases List.mem_cons.mp hq2 with hq2 | hq2
        · subst hq2
          right
          refine ⟨nbrs, by rw [← hqe]; exact hnbrs, ?_⟩
          intro x hx
          by_cases hxv : x ∈ vis
          · exact List.mem_append.mpr (Or.inl hxv)
          · exact hfcov x hx hxv
        · left
          exact ⟨q, List.mem_append.mpr (Or.inl hq2), hqe⟩
      · right
        refine ⟨l, hl, ?_⟩
        intro x hx
        exact List.mem_append.mpr (Or.inl (hsub x hx))
    · left
      refine ⟨p ++ [v], ?_, pathEnd_append_singleton p v⟩
      apply List.mem_append.mpr
      right
      exact List.mem_map.mpr ⟨v, hv, rfl⟩
  · intro v m hvm hmd
    obtain ⟨h1, l, hl, hsub⟩ := inv.levelDone v m hvm hmd
    refine ⟨List.mem_append.mpr (Or.inl h1), l, hl, ?_⟩
    intro x hx
    exact List.mem_append.mpr (Or.inl (hsub x hx))
  · intro v hvm
    obtain ⟨h1, hrest⟩ := inv.levelCur v hvm
    refine ⟨List.mem_append.mpr (Or.inl h1), ?_⟩
    rcases hrest with ⟨l, hl, hsub⟩ | ⟨q, hq2, hqe⟩
    · left
      exact ⟨l, hl, fun x hx => List.mem_append.mpr (Or.inl (hsub x hx))⟩
    · rcases List.mem_cons.mp hq2 with hq2 | hq2
      · subst hq2
        left
        refine ⟨nbrs, by rw [← hqe]; exact hnbrs, ?_⟩
        intro x hx
        by_cases hxv : x ∈ vis
        · exact List.mem_append.mpr (Or.inl hxv)
        · exact hfcov x hx hxv
      · right
        exact ⟨q, hq2, hqe⟩
  · intro hg
    rcases List.mem_append.mp hg with hg | hg
    · obtain ⟨q, hq2, hqe⟩ := inv.goalPending hg
      rcases List.mem_cons.mp hq2 with hq2 | hq2
      · subst hq2
        exact absurd hqe hnode
      · exact ⟨q, List.mem_append.mpr (Or.inl hq2), hqe⟩
    · refine ⟨p ++ [goal], ?_, pathEnd_append_singleton p goal⟩
      apply List.mem_append.mpr
      right
      exact List.mem_map.mpr ⟨goal, hg, rfl⟩

theorem binv_empty {g : NGraph} {start goal : ℕ} {D : ℕ}
    {qa qb : List (List ℕ)} {vis : List ℕ}
    (inv : BInv g start goal D qa qb [] vis) : ¬ NReach g start goal := by
  have hqa : qa = [] := by
    have := inv.qsplit
    exact (List.append_eq_nil.mp this.symm).1
  have hle : ∀ v m, IsMinHops g start v m → m ≤ D →
      v ∈ vis ∧ ∃ l, dGet g v = some l ∧ ∀ x ∈ l, x ∈ vis := by
    intro v m hv hmd
    rcases Nat.lt_or_ge m D with hlt | hge
    · exact inv.levelDone v m hv hlt
    · have : m = D := by omega
      subst this
      obtain ⟨h1, hrest⟩ := inv.levelCur v hv
      rcases hrest with hrest | ⟨q, hq, _⟩
      · exact ⟨h1, hrest⟩
      · rw [hqa] at hq
        exact absurd hq (List.not_mem_nil q)
  have hproc : ∀ m v, IsMinHops g start v m →
      v ∈ vis ∧ ∃ l, dGet g v = some l ∧ ∀ x ∈ l, x ∈ vis := by
    intro m
    induction m with
    | zero => exact fun v hv => hle v 0 hv (Nat.zero_le D)
    | succ m ih =>
        intro v hv
        rcases le_or_lt (m + 1) D with hmd | hmd
        · exact hle v (m + 1) hv hmd
        · obtain ⟨x, l, hx, hgx, hvl⟩ := isMinHops_pred hv
          obtain ⟨_, l2, hgx2, hsub⟩ := ih x hx
          rw [hgx] at hgx2
          simp only [Option.some.injEq] at hgx2
          subst hgx2
          have hvvis : v ∈ vis := hsub v hvl
          refine ⟨hvvis, ?_⟩
          rcases inv.visProc v hvvis with ⟨q, hq, _⟩ | hrest
          · exact absurd hq (List.not_mem_nil q)
          · exact hrest
  intro hreach
  obtain ⟨m, hm⟩ := exists_isMinHops hreach
  obtain ⟨hgv, _⟩ := hproc m goal hm
  obtain ⟨q, hq, _⟩ := inv.goalPending hgv
  exact absurd hq (List.not_mem_nil q)

/-! ## Total correctness of the BFS loop -/

theorem bfsLoop_total {g : NGraph} {start goal : ℕ}
    (hc : NClosed g) (hs : start ∈ dKeys g) :
    ∀ (fuel D : ℕ) (qa qb queue : List (List ℕ)) (vis ord : List ℕ),
      BInv g start goal D qa qb queue vis →
      ((start :: dKeys g).dedup.length - vis.length) + queue.length < fuel →
      ∃ r ordF, bfsLoop g goal fuel queue vis ord = some (r, ordF) ∧
        (∀ p, r = some p →
          ∃ vs, p = start :: vs ∧ NWalk g start vs goal ∧
            IsMinHops g start goal vs.length) ∧
        (r = none → ¬ NReach g start goal) := by
  intro fuel
  induction fuel with
  | zero =>
      intro D qa qb queue vis ord _ hm
      omega
  | succ n ih =>
      intro D qa qb queue vis ord inv hm
      cases queue with
      | nil =>
          refine ⟨none, ord, ?_, ?_, ?_⟩
          · rfl
          · intro p hp
            simp at hp
          · intro _
            exact binv_empty inv
      | cons p qrest =>
          have hex : ∃ D2 qa2, BInv g start goal D2 (p :: qa2)
              (match qa2 with | _ => ([] : List (List ℕ))) (p :: qrest) vis ∨
              True := ⟨0, [], Or.inr trivial⟩
          clear hex
          have hmain : ∃ D2 qa2 qb2,
              BInv g start goal D2 (p :: qa2) qb2 (p :: qrest) vis ∧
              qrest = qa2 ++ qb2 := by
            cases qa with
            | nil =>
                have inv2 := binv_norm inv
                have hsplit2 := inv2.qsplit
                rw [List.append_nil] at hsplit2
                cases hqb : qb with
                | nil =>
                    rw [hqb] at hsplit2
                    simp at hsplit2
                | cons pb qb' =>
                    rw [hqb] at hsplit2
                    simp only [List.cons.injEq] at hsplit2
                    obtain ⟨hp1, hp2⟩ := hsplit2
                    rw [hqb] at inv2
                    subst hp1
                    exact ⟨D + 1, qb', [], inv2, by simp [hp2]⟩
            | cons pa qa' =>
                have hsplit2 := inv.qsplit
                simp only [List.cons_append, List.cons.injEq] at hsplit2
                obtain ⟨hp1, hp2⟩ := hsplit2
                subst hp1
                exact ⟨D, qa', qb, inv, hp2⟩
          obtain ⟨D2, qa2, qb2, inv2, hq2⟩ := hmain
          obtain ⟨vs, hpvs, hpwalk⟩ := inv2.qpath p (List.mem_cons_self _ _)
          have hpne : p ≠ [] := by rw [hpvs]; exact List.cons_ne_nil _ _
          have hlast : p.getLast? = some (pathEnd p) := getLast?_eq_pathEnd hpne
          by_cases hgoal : pathEnd p = goal
          · refine ⟨some p, ord, ?_, ?_, ?_⟩
            · unfold bfsLoop
              rw [hlast]
              dsimp only
              rw [if_pos hgoal]
            · intro p0 hp0
              simp only [Option.some.injEq] at hp0
              subst hp0
              refine ⟨vs, hpvs, ?_, ?_⟩
              · rw [← hgoal]
                exact hpwalk
              · have hq := inv2.qmin p (List.mem_cons_self _ _)
                rw [hgoal] at hq
                have : p.length - 1 = vs.length := by
                  rw [hpvs]
                  simp
                rw [this] at hq
                exact hq
            · intro habs
              simp at habs
          · have hnodevis : pathEnd p ∈ vis :=
              inv2.qvis p (List.mem_cons_self _ _) _ (pathEnd_mem hpne)
            have hnodekeys : pathEnd p ∈ dKeys g := by
              rcases List.mem_cons.mp (inv2.visKeys _ hnodevis) with hh | hh
              · rw [hh]; exact hs
              · exact hh
            obtain ⟨nbrs, hnbrs⟩ := (mem_dKeys_iff _ _).mp hnodekeys
            obtain ⟨fresh, hexp, hfnd, hfmem, hfcov⟩ :=
              bfsExpand_spec p (sortAsc nbrs) qrest vis ord
            have hfmem' : ∀ n2 ∈ fresh, n2 ∈ nbrs ∧ n2 ∉ vis := by
              intro n2 hn2
              obtain ⟨h1, h2⟩ := hfmem n2 hn2
              exact ⟨(mem_sortAsc n2 nbrs).mp h1, h2⟩
            have hfcov' : ∀ n2 ∈ nbrs, n2 ∉ vis → n2 ∈ vis ++ fresh := by
              intro n2 hn2 hnv
              exact hfcov n2 ((mem_sortAsc n2 nbrs).mpr hn2) hnv
            have inv3 := binv_step hc inv2 hgoal hnbrs hfnd hfmem' hfcov'
            have hsub3 : (vis ++ fresh).length ≤
                (start :: dKeys g).dedup.length :=
              nodup_sub_dedup_length inv3.visNodup inv3.visKeys
            have hm3 : ((start :: dKeys g).dedup.length -
                (vis ++ fresh).length) +
                (qrest ++ fresh.map (fun n2 => p ++ [n2])).length < n := by
              simp only [List.length_append, List.length_map] at hsub3 ⊢
              simp only [List.length_cons] at hm
              omega
            obtain ⟨r, ordF, hrun, hsome, hnone⟩ :=
              ih D2 qa2 (qb2 ++ fresh.map (fun n2 => p ++ [n2]))
                (qrest ++ fresh.map (fun n2 => p ++ [n2]))
                (vis ++ fresh) (ord ++ fresh) inv3 hm3
            refine ⟨r, ordF, ?_, hsome, hnone⟩
            unfold bfsLoop
            rw [hlast]
            dsimp only
            rw [if_neg hgoal, hnbrs]
            dsimp only
            rw [hexp]
            exact hrun

/-! ## Trace-instrumented traversal loops (ghost observers for the
visit-order claims): identical control flow, plus the list of nodes the
loop actually dequeued / popped. -/

def bfsLoopT (g : NGraph) (goal : ℕ) : ℕ → List (List ℕ) → List ℕ → List ℕ →
    List ℕ → Option (Option (List ℕ) × List ℕ × List ℕ)
  | 0, _, _, _, _ => none
  | _ + 1, [], _, ord, deq => some (none, ord, deq)
  | fuel + 1, path :: qrest, vis, ord, deq =>
      match path.getLast? with
      | none => none
      | some node =>
          if node = goal then some (some path, ord, deq ++ [node])
          else
            match dGet g node with
            | none => none
            | some nbrs =>
                match bfsExpand path (sortAsc nbrs) qrest vis ord with
                | (q2, vis2, ord2) =>
                    bfsLoopT g goal fuel q2 vis2 ord2 (deq ++ [node])

def bfs_pathT (g : NGraph) (start goal : ℕ) (fuel : ℕ) :
    Option (Option (List ℕ) × List ℕ × List ℕ) :=
  bfsLoopT g goal fuel [[start]] [start] [start] []

def dfsLoopT (g : NGraph) (goal : ℕ) : ℕ → List (List ℕ) → List ℕ → List ℕ →
    List ℕ → Option (Option (List ℕ) × List ℕ × List ℕ)
  | 0, _, _, _, _ => none
  | _ + 1, [], _, ord, pops => some (none, ord, pops)
  | fuel + 1, path :: srest, vis, ord, pops =>
      match path.getLast? with
      | none => none
      | some node =>
          if node ∈ vis then dfsLoopT g goal fuel srest vis ord (pops ++ [node])
          else
            if node = goal then some (some path, ord ++ [node], pops ++ [node])
            else
              match dGet g node with
              | none => none
              | some nbrs =>
                  dfsLoopT g goal fuel
                    (dfsPush path (sortDesc nbrs) (vis ++ [node]) srest)
                    (vis ++ [node]) (ord ++ [node]) (pops ++ [node])

def dfs_pathT (g : NGraph) (start goal : ℕ) (fuel : ℕ) :
    Option (Option (List ℕ) × List ℕ × List ℕ) :=
  dfsLoopT g goal fuel [[start]] [] [] []

/-- Keep the first occurrence of each element, relative to already-seen
elements. -/
def fdAux (seen : List ℕ) : List ℕ → List ℕ
  | [] => []
  | x :: rest =>
      if x ∈ seen then fdAux seen rest else x :: fdAux (x :: seen) rest

/-- The distinct elements of a list in order of first occurrence. -/
def firstDedup (l : List ℕ) : List ℕ := fdAux [] l

theorem fdAux_append_singleton (x : ℕ) :
    ∀ (l : List ℕ) (seen : List ℕ),
      fdAux seen (l ++ [x]) =
        fdAux seen l ++ (if x ∈ seen ∨ x ∈ l then [] else [x]) := by
  intro l
  induction l with
  | nil =>
      intro seen
      by_cases hx : x ∈ seen
      · simp [fdAux, hx]
      · simp [fdAux, hx]
  | cons y rest ih =>
      intro seen
      by_cases hy : y ∈ seen
      · have h1 : fdAux seen ((y :: rest) ++ [x]) = fdAux seen (rest ++ [x]) := by
          simp [fdAux, hy]
        have h2 : fdAux seen (y :: rest) = fdAux seen rest := by
          simp [fdAux, hy]
        rw [h1, h2, ih seen]
        congr 1
        have hiff : (x ∈ seen ∨ x ∈ rest) ↔ (x ∈ seen ∨ x ∈ y :: rest) := by
          simp only [List.mem_cons]
          constructor
          · tauto
          · rintro (h | h | h)
            · tauto
            · subst h
              tauto
            · tauto
        by_cases hc : x ∈ seen ∨ x ∈ rest
        · rw [if_pos hc, if_pos (hiff.mp hc)]
        · rw [if_neg hc, if_neg (fun hh => hc (hiff.mpr hh))]
      · have h1 : fdAux seen ((y :: rest) ++ [x]) =
            y :: fdAux (y :: seen) (rest ++ [x]) := by
          simp [fdAux, hy]
        have h2 : fdAux seen (y :: rest) = y :: fdAux (y :: seen) rest := by
          simp [fdAux, hy]
        rw [h1, h2, ih (y :: seen)]
        simp only [List.cons_append]
        congr 2
        have hiff : (x ∈ y :: seen ∨ x ∈ rest) ↔ (x ∈ seen ∨ x ∈ y :: rest) := by
          simp only [List.mem_cons]
          tauto
        by_cases hc : x ∈ y :: seen ∨ x ∈ rest
        · rw [if_pos hc, if_pos (hiff.mp hc)]
        · rw [if_neg hc, if_neg (fun hh => hc (hiff.mpr hh))]

theorem pathEnd_of_getLast? {p : List ℕ} {n : ℕ} (h : p.getLast? = some n) :
    pathEnd p = n := by
  unfold pathEnd
  rw [List.getLastD_eq_getLast?, h]
  rfl

theorem bfsLoopT_proj {g : NGraph} {goal : ℕ} :
    ∀ (fuel : ℕ) (q : List (List ℕ)) (vis ord deq : List ℕ)
      (r : Option (List ℕ)) (ordF deqF : List ℕ),
      bfsLoopT g goal fuel q vis ord deq = some (r, ordF, deqF) →
      bfsLoop g goal fuel q vis ord = some (r, ordF) := by
  intro fuel
  induction fuel with
  | zero =>
      intro q vis ord deq r ordF deqF h
      simp [bfsLoopT] at h
  | succ n ih =>
      intro q vis ord deq r ordF deqF h
      cases q with
      | nil =>
          simp only [bfsLoopT, Option.some.injEq, Prod.mk.injEq] at h
          obtain ⟨h1, h2, _⟩ := h
          simp [bfsLoop, h1, h2]
      | cons path qrest =>
          unfold bfsLoopT at h
          unfold bfsLoop
          cases hlast : path.getLast? with
          | none => rw [hlast] at h; simp at h
          | some node =>
              rw [hlast] at h
              dsimp only at h ⊢
              by_cases hgoal : node = goal
              · rw [if_pos hgoal] at h ⊢
                simp only [Option.some.injEq, Prod.mk.injEq] at h
                obtain ⟨h1, h2, _⟩ := h
                rw [h1, h2]
              · rw [if_neg hgoal] at h ⊢
                cases hget : dGet g node with
                | none => rw [hget] at h; simp at h
                | some nbrs =>
                    rw [hget] at h
                    dsimp only at h ⊢
                    cases hbe : bfsExpand path (sortAsc nbrs) qrest vis ord with
                    | mk q2 rest2 =>
                        obtain ⟨vis2, ord2⟩ := rest2
                        rw [hbe] at h
                        dsimp only at h
                        exact ih q2 vis2 ord2 _ r ordF deqF h

theorem bfsLoopT_ord {g : NGraph} {goal : ℕ} :
    ∀ (fuel : ℕ) (q : List (List ℕ)) (vis ord deq : List ℕ)
      (r : Option (List ℕ)) (ordF deqF : List ℕ),
      ord = deq ++ q.map pathEnd →
      bfsLoopT g goal fuel q vis ord deq = some (r, ordF, deqF) →
      ∃ t, ordF = deqF ++ t := by
  intro fuel
  induction fuel with
  | zero =>
      intro q vis ord deq r ordF deqF _ h
      simp [bfsLoopT] at h
  | succ n ih =>
      intro q vis ord deq r ordF deqF hinv h
      cases q with
      | nil =>
          simp only [bfsLoopT, Option.some.injEq, Prod.mk.injEq] at h
          obtain ⟨_, h2, h3⟩ := h
          refine ⟨[], ?_⟩
          rw [← h2, ← h3, hinv]
          simp
      | cons path qrest =>
          unfold bfsLoopT at h
          cases hlast : path.getLast? with
          | none => rw [hlast] at h; simp at h
          | some node =>
              have hnode : pathEnd path = node := pathEnd_of_getLast? hlast
              rw [hlast] at h
              dsimp only at h
              by_cases hgoal : node = goal
              · rw [if_pos hgoal] at h
                simp only [Option.some.injEq, Prod.mk.injEq] at h
                obtain ⟨_, h2, h3⟩ := h
                refine ⟨qrest.map pathEnd, ?_⟩
                rw [← h2, ← h3, hinv]
                simp [hnode]
              · rw [if_neg hgoal] at h
                cases hget : dGet g node with
                | none => rw [hget] at h; simp at h
                | some nbrs =>
                    rw [hget] at h
                    dsimp only at h
                    obtain ⟨fresh, hexp, _, _, _⟩ :=
                      bfsExpand_spec path (sortAsc nbrs) qrest vis ord
                    rw [hexp] at h
                    dsimp only at h
                    apply ih _ _ _ _ r ordF deqF _ h
                    rw [hinv]
                    simp only [List.map_append, List.map_map, List.map_cons]
                    have : (fresh.map (pathEnd ∘ fun n => path ++ [n])) = fresh := by
                      have hfun : (pathEnd ∘ fun n => path ++ [n]) = id := by
                        funext n
                        simp [Function.comp, pathEnd_append_singleton]
                      rw [hfun, List.map_id]
                    rw [this, hnode]
                    simp [List.append_assoc]

theorem dfsLoopT_proj {g : NGraph} {goal : ℕ} :
    ∀ (fuel : ℕ) (stack : List (List ℕ)) (vis ord pops : List ℕ)
      (r : Option (List ℕ)) (ordF popsF : List ℕ),
      dfsLoopT g goal fuel stack vis ord pops = some (r, ordF, popsF) →
      dfsLoop g goal fuel stack vis ord = some (r, ordF) := by
  intro fuel
  induction fuel with
  | zero =>
      intro stack vis ord pops r ordF popsF h
      simp [dfsLoopT] at h
  | succ n ih =>
      intro stack vis ord pops r ordF popsF h
      cases stack with
      | nil =>
          simp only [dfsLoopT, Option.some.injEq, Prod.mk.injEq] at h
          obtain ⟨h1, h2, _⟩ := h
          simp [dfsLoop, h1, h2]
      | cons path srest =>
          unfold dfsLoopT at h
          unfold dfsLoop
          cases hlast : path.getLast? with
          | none => rw [hlast] at h; simp at h
          | some node =>
              rw [hlast] at h
              dsimp only at h ⊢
              by_cases hvis : node ∈ vis
              · rw [if_pos hvis] at h ⊢
                exact ih srest vis ord _ r ordF popsF h
              · rw [if_neg hvis] at h ⊢
                by_cases hgoal : node = goal
                · rw [if_pos hgoal] at h ⊢
                  simp only [Option.some.injEq, Prod.mk.injEq] at h
                  obtain ⟨h1, h2, _⟩ := h
                  rw [h1, h2]
                · rw [if_neg hgoal] at h ⊢
                  cases hget : dGet g node with
                  | none => rw [hget] at h; simp at h
                  | some nbrs =>
                      rw [hget] at h
                      dsimp only at h ⊢
                      exact ih _ _ _ _ r ordF popsF h

theorem dfsLoopT_ord {g : NGraph} {goal : ℕ} :
    ∀ (fuel : ℕ) (stack : List (List ℕ)) (vis ord pops : List ℕ)
      (r : Option (List ℕ)) (ordF popsF : List ℕ),
      (∀ x, x ∈ vis ↔ x ∈ pops) →
      ord = firstDedup pops →
      dfsLoopT g goal fuel stack vis ord pops = some (r, ordF, popsF) →
      ordF = firstDedup popsF := by
  intro fuel
  induction fuel with
  | zero =>
      intro stack vis ord pops r ordF popsF _ _ h
      simp [dfsLoopT] at h
  | succ n ih =>
      intro stack vis ord pops r ordF popsF hvp hord h
      cases stack with
      | nil =>
          simp only [dfsLoopT, Option.some.injEq, Prod.mk.injEq] at h
          obtain ⟨_, h2, h3⟩ := h
          rw [← h2, ← h3]
          exact hord
      | cons path srest =>
          unfold dfsLoopT at h
          cases hlast : path.getLast? with
          | none => rw [hlast] at h; simp at h
          | some node =>
              rw [hlast] at h
              dsimp only at h
              have hfd : node ∈ pops →
                  firstDedup (pops ++ [node]) = firstDedup pops := by
                intro hnp
                unfold firstDedup
                rw [fdAux_append_singleton]
                simp [hnp]
              have hfd2 : node ∉ pops →
                  firstDedup (pops ++ [node]) = firstDedup pops ++ [node] := by
                intro hnp
                unfold firstDedup
                rw [fdAux_append_singleton]
                simp [hnp]
              by_cases hvis : node ∈ vis
              · rw [if_pos hvis] at h
                apply ih srest vis ord _ r ordF popsF ?_ ?_ h
                · intro x
                  rw [hvp x]
                  simp only [List.mem_append, List.mem_singleton]
                  constructor
                  · tauto
                  · rintro (hh | hh)
                    · exact hh
                    · rw [hh]
                      exact (hvp node).mp hvis
                · rw [hord, hfd ((hvp node).mp hvis)]
              · rw [if_neg hvis] at h
                have hnp : node ∉ pops := fun hh => hvis ((hvp node).mpr hh)
                by_cases hgoal : node = goal
                · rw [if_pos hgoal] at h
                  simp only [Option.some.injEq, Prod.mk.injEq] at h
                  obtain ⟨_, h2, h3⟩ := h
                  rw [← h2, ← h3, hord, hfd2 hnp]
                · rw [if_neg hgoal] at h
                  cases hget : dGet g node with
                  | none => rw [hget] at h; simp at h
                  | some nbrs =>
                      rw [hget] at h
                      dsimp only at h
                      apply ih _ _ _ _ r ordF popsF ?_ ?_ h
                      · intro x
                        simp only [List.mem_append, List.mem_singleton]
                        rw [hvp x]
                      · rw [hord, hfd2 hnp]

theorem dGet_none_of_not_mem {α : Type} {d : List (ℕ × α)} {k : ℕ}
    (h : k ∉ dKeys d) : dGet d k = none := by
  cases hg : dGet d k with
  | none => rfl
  | some a => exact absurd (dGet_some_mem_dKeys hg) h

/-- bfs_path returns gracefully for any start vertex of a closed graph, and
the path it returns is hop-minimal. -/
theorem bfs_path_spec {g : NGraph} {start goal : ℕ} {fuel : ℕ}
    (hc : NClosed g) (hs : start ∈ dKeys g) (hfuel : bfsFuel g start ≤ fuel) :
    ∃ r ordF, bfs_path g start goal fuel = some (r, ordF) ∧
      (∀ p, r = some p → ∃ vs, p = start :: vs ∧ NWalk g start vs goal ∧
        IsMinHops g start goal vs.length) ∧
      (r = none → ¬ NReach g start goal) := by
  have hinit := @binv_init g start goal hs
  have hm : ((start :: dKeys g).dedup.length - [start].length) +
      [[start]].length < fuel := by
    have h2 : bfsFuel g start = (start :: dKeys g).dedup.length + 1 := rfl
    rw [h2] at hfuel
    have h3 : ([start] : List ℕ).length = 1 := rfl
    have h4 : ([[start]] : List (List ℕ)).length = 1 := rfl
    rw [h3, h4]
    have h5 : 1 ≤ (start :: dKeys g).dedup.length := by
      have hm5 : start ∈ (start :: dKeys g).dedup := by
        rw [List.mem_dedup]
        simp
      exact List.length_pos.mpr (List.ne_nil_of_mem hm5)
    omega
  exact bfsLoop_total hc hs fuel 0 [[start]] [] [[start]] [start] [start] hinit hm

/-! ## The unit-weight bridge between the Dijkstra graph and the
traversal graph (for the uniform-weight agreement claim) -/

/-- The unweighted view of a weighted graph, as the traversal engine sees
it: same keys, adjacency stripped of weights. -/
def toNx (g : WGraph) : NGraph := g.map fun e => (e.1, e.2.map Prod.fst)

/-- Every edge weight equals 1. -/
def UnitW (g : WGraph) : Prop :=
  ∀ u l, dGet g u = some l → ∀ p ∈ l, p.2 = 1

theorem dGet_toNx (g : WGraph) (u : ℕ) :
    dGet (toNx g) u = (dGet g u).map fun l => l.map Prod.fst := by
  induction g with
  | nil => simp [toNx, dGet]
  | cons e rest ih =>
      obtain ⟨k0, l0⟩ := e
      by_cases h : k0 = u
      · simp [toNx, dGet, h]
      · simp only [toNx, List.map_cons, dGet, if_neg h]
        simpa [toNx] using ih

theorem dKeys_toNx (g : WGraph) : dKeys (toNx g) = dKeys g := by
  simp [toNx, dKeys, List.map_map, Function.comp_def]

theorem toNx_closed {g : WGraph} (hc : Closed g) : NClosed (toNx g) := by
  intro u l hl n hn
  rw [dGet_toNx] at hl
  cases hg : dGet g u with
  | none => rw [hg] at hl; simp at hl
  | some l0 =>
      rw [hg] at hl
      simp only [Option.map_some'] at hl
      have hl' : l = l0.map Prod.fst := by
        simpa using hl.symm
      subst hl'
      obtain ⟨p, hp, rfl⟩ := List.mem_map.mp hn
      rw [dKeys_toNx]
      exact hc u l0 hg p hp

theorem costWalk_toNx {g : WGraph} {s v : ℕ} {steps : List (ℕ × ℤ)}
    (h : CostWalk g s steps v) :
    NWalk (toNx g) s (steps.map Prod.fst) v := by
  induction h with
  | nil => exact NWalk.nil _
  | cons hl hmem _rest ih =>
      rename_i u t e steps2 l
      have hl2 : dGet (toNx g) u = some (l.map Prod.fst) := by
        rw [dGet_toNx, hl]
        rfl
      exact NWalk.cons hl2 (List.mem_map.mpr ⟨_, hmem, rfl⟩) ih

theorem nWalk_toNx {g : WGraph} (hu : UnitW g) {s v : ℕ} {vs : List ℕ}
    (h : NWalk (toNx g) s vs v) :
    ∃ steps, CostWalk g s steps v ∧ steps.map Prod.fst = vs ∧
      wcost steps = vs.length := by
  induction h with
  | nil => exact ⟨[], CostWalk.nil _, rfl, rfl⟩
  | cons hl hmem _rest ih =>
      rename_i u n t vs' l
      obtain ⟨steps, hw, hmap, hcost⟩ := ih
      rw [dGet_toNx] at hl
      cases hg : dGet g u with
      | none => rw [hg] at hl; simp at hl
      | some l0 =>
          rw [hg] at hl
          simp only [Option.map_some', Option.some.injEq] at hl
          subst hl
          obtain ⟨p, hp, hpn⟩ := List.mem_map.mp hmem
          have hw1 : p.2 = 1 := hu u l0 hg p hp
          refine ⟨p :: steps, ?_, ?_, ?_⟩
          · refine CostWalk.cons hg hp ?_
            rw [hpn]
            exact hw
          · simp [hpn, hmap]
          · rw [wcost_cons, hw1, hcost]
            simp only [List.length_cons]
            push_cast
            ring

theorem unit_cost_eq_length {g : WGraph} (hu : UnitW g) {s v : ℕ}
    {steps : List (ℕ × ℤ)} (h : CostWalk g s steps v) :
    wcost steps = steps.length := by
  induction h with
  | nil => simp [wcost]
  | cons hl hmem _rest ih =>
      rw [wcost_cons, ih, hu _ _ hl _ hmem]
      simp only [List.length_cons]
      push_cast
      ring

/-! ## All-pairs distance matrix (task3.py) -/

/-- The finite part of an extended distance. -/
def finPart : WithTop ℤ → Option ℤ
  | ⊤ => none
  | (k : ℤ) => some k

/-- Models nx.single_source_dijkstra_path_length per its documented
contract: the dict of shortest weighted path lengths, keyed by exactly the
vertices reachable from the source (unreachable vertices are absent from
the dict).  Computed here from the verified dijkstra embedding by dropping
the infinite entries. -/
def nxLengths (g : WGraph) (s : ℕ) (fuel : ℕ) : Option (List (ℕ × ℤ)) :=
  (dijkstra_heap g s fuel).map fun dp =>
    dp.1.filterMap fun e => (finPart e.2).map fun k => (e.1, k)

/-- The per-source rows of the all-pairs lengths dictionary. -/
def buildLengths (g : WGraph) (fuel : ℕ) : List ℕ → Option (List (ℕ × List (ℕ × ℤ)))
  | [] => some []
  | s :: rest =>
      match nxLengths g s fuel with
      | none => none
      | some row =>
          (buildLengths g fuel rest).map fun m => (s, row) :: m

/-- find_all_shortest_paths (the lengths dictionary): one single-source
Dijkstra run per vertex, keyed by source. -/
def find_all_shortest_paths (g : WGraph) (fuel : ℕ) :
    Option (List (ℕ × List (ℕ × ℤ))) :=
  buildLengths g fuel (dKeys g)

/-- One cell of the distance matrix: the diagonal is written as 0 without
any lookup; off the diagonal the cell is all_lengths[source][target], and a
missing key is a raised KeyError (none). -/
def matrixCell (allLengths : List (ℕ × List (ℕ × ℤ))) (s t : ℕ) : Option ℤ :=
  if s = t then some 0
  else
    match dGet allLengths s with
    | none => none
    | some row => dGet row t

/-- One row of the distance matrix, over the node list. -/
def matrixRow (allLengths : List (ℕ × List (ℕ × ℤ))) (s : ℕ) :
    List ℕ → Option (List (ℕ × ℤ))
  | [] => some []
  | t :: rest =>
      match matrixCell allLengths s t with
      | none => none
      | some k => (matrixRow allLengths s rest).map fun r => (t, k) :: r

/-- The rows of the distance matrix, one per source vertex. -/
def buildRows (allLengths : List (ℕ × List (ℕ × ℤ))) (nodes : List ℕ) :
    List ℕ → Option (List (ℕ × List (ℕ × ℤ)))
  | [] => some []
  | s :: rest =>
      match matrixRow allLengths s nodes with
      | none => none
      | some row =>
          (buildRows allLengths nodes rest).map fun m => (s, row) :: m

/-- create_distance_matrix(graph, all_lengths): fill the |V| x |V| table
row by row; any unreachable (source, target) pair raises KeyError, which
aborts the whole construction (none). -/
def create_distance_matrix (g : WGraph) (allLengths : List (ℕ × List (ℕ × ℤ))) :
    Option (List (ℕ × List (ℕ × ℤ))) :=
  buildRows allLengths (dKeys g) (dKeys g)

theorem finPart_top : finPart ⊤ = none := rfl

theorem finPart_coe (k : ℤ) : finPart ((k : ℤ) : WithTop ℤ) = some k := rfl

theorem dKeys_filterMap_sub {d : List (ℕ × WithTop ℤ)} {t : ℕ}
    (h : t ∈ dKeys (d.filterMap fun e => (finPart e.2).map fun k => (e.1, k))) :
    t ∈ dKeys d := by
  simp only [dKeys, List.mem_map] at h ⊢
  obtain ⟨p, hp, hpt⟩ := h
  obtain ⟨e, he, heq⟩ := List.mem_filterMap.mp hp
  refine ⟨e, he, ?_⟩
  cases hf : finPart e.2 with
  | none => rw [hf] at heq; simp at heq
  | some k =>
      rw [hf] at heq
      simp only [Option.map_some', Option.some.injEq] at heq
      rw [← heq] at hpt
      exact hpt

theorem dGet_filterMap_lengths {d : List (ℕ × WithTop ℤ)}
    (hnd : (dKeys d).Nodup) (t : ℕ) :
    dGet (d.filterMap fun e => (finPart e.2).map fun k => (e.1, k)) t =
      (dGet d t).bind finPart := by
  induction d with
  | nil => simp [dGet]
  | cons e rest ih =>
      obtain ⟨k0, v0⟩ := e
      simp only [dKeys, List.map_cons, List.nodup_cons] at hnd
      obtain ⟨hk0, hnd'⟩ := hnd
      by_cases ht : k0 = t
      · subst ht
        cases hf : finPart v0 with
        | none =>
            simp only [List.filterMap_cons, hf, Option.map_none']
            have htr : dGet (rest.filterMap fun e =>
                (finPart e.2).map fun k => (e.1, k)) k0 = none := by
              apply dGet_none_of_not_mem
              intro hc
              exact hk0 (dKeys_filterMap_sub hc)
            rw [htr]
            simp [dGet, hf]
        | some k =>
            simp only [List.filterMap_cons, hf, Option.map_some']
            simp [dGet, hf]
      · cases hf : finPart v0 with
        | none =>
            simp only [List.filterMap_cons, hf, Option.map_none']
            rw [ih hnd']
            simp [dGet, ht]
        | some k =>
            simp only [List.filterMap_cons, hf, Option.map_some']
            simp only [dGet, if_neg ht]
            exact ih hnd'

/-- The lengths dict of one source: exactly the reachable vertices, with
their exact shortest distances. -/
theorem nxLengths_spec {g : WGraph} {s : ℕ} {fuel : ℕ}
    (hc : Closed g) (hn : Nonneg g) (hnd : (dKeys g).Nodup)
    (hs : s ∈ dKeys g) (hfuel : dijkstraFuel g ≤ fuel) :
    ∃ row, nxLengths g s fuel = some row ∧
      ∀ t ∈ dKeys g,
        (Reach g s t → ∃ k, dGet row t = some k ∧ IsMinDist g s t k) ∧
        (¬ Reach g s t → dGet row t = none) := by
  obtain ⟨dist, prev, hrun, hdk, _, hmain, _⟩ :=
    dijkstra_heap_spec hc hn hs hfuel
  have hndd : (dKeys dist).Nodup := by rw [hdk]; exact hnd
  refine ⟨dist.filterMap fun e => (finPart e.2).map fun k => (e.1, k), ?_, ?_⟩
  · unfold nxLengths
    rw [hrun]
    rfl
  · intro t ht
    obtain ⟨hreach, hunreach⟩ := hmain t ht
    constructor
    · intro hr
      obtain ⟨k, hk, hmin⟩ := hreach hr
      refine ⟨k, ?_, hmin⟩
      rw [dGet_filterMap_lengths hndd, hk]
      rfl
    · intro hr
      rw [dGet_filterMap_lengths hndd, hunreach hr]
      rfl

theorem buildLengths_spec {g : WGraph} {fuel : ℕ} :
    ∀ srcs : List ℕ, (∀ s ∈ srcs, ∃ row, nxLengths g s fuel = some row) →
      ∃ L, buildLengths g fuel srcs = some L ∧ dKeys L = srcs ∧
        ∀ s row, dGet L s = some row → nxLengths g s fuel = some row := by
  intro srcs
  induction srcs with
  | nil =>
      intro _
      exact ⟨[], rfl, rfl, by simp [dGet]⟩
  | cons s rest ih =>
      intro h
      obtain ⟨row, hrow⟩ := h s (List.mem_cons_self _ _)
      obtain ⟨L, hL, hLk, hLget⟩ := ih fun t ht => h t (List.mem_cons_of_mem _ ht)
      refine ⟨(s, row) :: L, ?_, ?_, ?_⟩
      · unfold buildLengths
        rw [hrow, hL]
        rfl
      · have hLk' : List.map Prod.fst L = rest := hLk
        simp [dKeys, hLk']
      · intro t rowt hget
        by_cases ht : s = t
        · subst ht
          simp only [dGet, if_pos rfl, Option.some.injEq] at hget
          rw [← hget]
          exact hrow
        · simp only [dGet, if_neg ht] at hget
          exact hLget t rowt hget

theorem matrixRow_spec {allLengths : List (ℕ × List (ℕ × ℤ))} {s : ℕ} :
    ∀ ts : List ℕ, (∀ t ∈ ts, ∃ k, matrixCell allLengths s t = some k) →
      ∃ row, matrixRow allLengths s ts = some row ∧ dKeys row = ts ∧
        ∀ t k, dGet row t = some k → matrixCell allLengths s t = some k := by
  intro ts
  induction ts with
  | nil =>
      intro _
      exact ⟨[], rfl, rfl, by simp [dGet]⟩
  | cons t rest ih =>
      intro h
      obtain ⟨k, hk⟩ := h t (List.mem_cons_self _ _)
      obtain ⟨row, hrow, hrk, hrget⟩ := ih fun x hx => h x (List.mem_cons_of_mem _ hx)
      refine ⟨(t, k) :: row, ?_, ?_, ?_⟩
      · unfold matrixRow
        rw [hk, hrow]
        rfl
      · have hrk' : List.map Prod.fst row = rest := hrk
        simp [dKeys, hrk']
      · intro x kx hget
        by_cases hx : t = x
        · subst hx
          simp only [dGet, if_pos rfl, Option.some.injEq] at hget
          rw [← hget]
          exact hk
        · simp only [dGet, if_neg hx] at hget
          exact hrget x kx hget

theorem buildRows_spec {allLengths : List (ℕ × List (ℕ × ℤ))}
    {nodes : List ℕ} :
    ∀ srcs : List ℕ,
      (∀ s ∈ srcs, ∃ row, matrixRow allLengths s nodes = some row) →
      ∃ M, buildRows allLengths nodes srcs = some M ∧ dKeys M = srcs ∧
        ∀ s row, dGet M s = some row → matrixRow allLengths s nodes = some row := by
  intro srcs
  induction srcs with
  | nil =>
      intro _
      exact ⟨[], rfl, rfl, by simp [dGet]⟩
  | cons s rest ih =>
      intro h
      obtain ⟨row, hrow⟩ := h s (List.mem_cons_self _ _)
      obtain ⟨M, hM, hMk, hMget⟩ := ih fun t ht => h t (List.mem_cons_of_mem _ ht)
      refine ⟨(s, row) :: M, ?_, ?_, ?_⟩
      · unfold buildRows
        rw [hrow, hM]
        rfl
      · have hMk' : List.map Prod.fst M = rest := hMk
        simp [dKeys, hMk']
      · intro t rowt hget
        by_cases ht : s = t
        · subst ht
          simp only [dGet, if_pos rfl, Option.some.injEq] at hget
          rw [← hget]
          exact hrow
        · simp only [dGet, if_neg ht] at hget
          exact hMget t rowt hget

/-! ## Bridging lemmas for concrete instantiations -/

theorem dGet_mem {α : Type} {d : List (ℕ × α)} {k : ℕ} {a : α}
    (h : dGet d k = some a) : (k, a) ∈ d := by
  induction d with
  | nil => simp [dGet] at h
  | cons e rest ih =>
      obtain ⟨k0, b⟩ := e
      by_cases hk : k0 = k
      · subst hk
        have hb : b = a := by simpa [dGet] using h
        rw [← hb]
        exact List.mem_cons_self _ _
      · simp only [dGet, if_neg hk] at h
        exact List.mem_cons_of_mem _ (ih h)

theorem closed_of_entries {g : List (ℕ × List (ℕ × ℤ))}
    (h : ∀ e : ℕ × List (ℕ × ℤ), e ∈ g → ∀ p : ℕ × ℤ, p ∈ e.2 → p.1 ∈ dKeys g) :
    Closed g := by
  intro u l hl p hp
  exact h (u, l) (dGet_mem hl) p hp

theorem nonneg_of_entries {g : List (ℕ × List (ℕ × ℤ))}
    (h : ∀ e : ℕ × List (ℕ × ℤ), e ∈ g → ∀ p : ℕ × ℤ, p ∈ e.2 → 0 ≤ p.2) :
    Nonneg g := by
  intro u l hl p hp
  exact h (u, l) (dGet_mem hl) p hp

theorem unitW_of_entries {g : List (ℕ × List (ℕ × ℤ))}
    (h : ∀ e : ℕ × List (ℕ × ℤ), e ∈ g → ∀ p : ℕ × ℤ, p ∈ e.2 → p.2 = 1) :
    UnitW g := by
  intro u l hl p hp
  exact h (u, l) (dGet_mem hl) p hp

theorem nclosed_of_entries {g : List (ℕ × List ℕ)}
    (h : ∀ e : ℕ × List ℕ, e ∈ g → ∀ n : ℕ, n ∈ e.2 → n ∈ dKeys g) :
    NClosed g := by
  intro u l hl n hn
  exact h (u, l) (dGet_mem hl) n hn

/-- Unreachability read off a computed distance map: an infinite entry in
the returned dist dictionary certifies that no walk exists. -/
theorem dijkstra_top_unreach {g : WGraph} {start : ℕ} {fuel : ℕ}
    {dist : List (ℕ × WithTop ℤ)} {prev : List (ℕ × Option ℕ)} {v : ℕ}
    (hc : Closed g) (hn : Nonneg g) (hs : start ∈ dKeys g)
    (hfuel : dijkstraFuel g ≤ fuel)
    (hrun : dijkstra_heap g start fuel = some (dist, prev))
    (hv : dGet dist v = some ⊤) : ¬ Reach g start v := by
  obtain ⟨dist2, prev2, hrun2, _, _, hmain, _⟩ :=
    dijkstra_heap_spec hc hn hs hfuel
  rw [hrun] at hrun2
  simp only [Option.some.injEq, Prod.mk.injEq] at hrun2
  obtain ⟨hd, _⟩ := hrun2
  subst hd
  intro hr
  obtain ⟨steps, hst⟩ := hr
  have hvk : v ∈ dKeys g := CostWalk.target_mem hc hst hs
  obtain ⟨k, hk, _⟩ := (hmain v hvk).1 ⟨steps, hst⟩
  rw [hv] at hk
  simp only [Option.some.injEq] at hk
  exact absurd hk.symm (by simp)

/-- bfs_path with goal equal to start answers immediately, graph entries
untouched. -/
theorem bfs_path_self (g : NGraph) (start : ℕ) (fuel : ℕ) :
    bfs_path g start start (fuel + 1) = some (some [start], [start]) := by
  unfold bfs_path bfsLoop
  simp

/-- reconstruct_path raises (returns the error value) when target was never
a key of the predecessor dictionary. -/
theorem reconstruct_path_keyError {prev : List (ℕ × Option ℕ)}
    {start target : ℕ} {fuel : ℕ} (h : dGet prev target = none) :
    reconstruct_path prev start target fuel = none := by
  unfold reconstruct_path
  rw [h]

/-- bfs_path raises when it expands a start vertex that was never added to
the graph (and the search does not return before expanding it). -/
theorem bfs_path_unknown_start {g : NGraph} {start goal : ℕ}
    (hs : start ∉ dKeys g) (hne : goal ≠ start) (fuel : ℕ) :
    bfs_path g start goal (fuel + 1) = none := by
  unfold bfs_path bfsLoop
  have h1 : ([start] : List ℕ).getLast? = some start := rfl
  rw [h1]
  dsimp only
  rw [if_neg (fun hh => hne hh.symm)]
  rw [dGet_none_of_not_mem hs]

/-! # The claims

Each claim of the specification is settled by one theorem below; concrete
graphs instantiate every theorem whose statement carries hypotheses. -/

/-- A small weighted graph built through add_edge: 1-2 (weight 1), 2-3
(weight 2), both undirected. -/
def gC1 : WGraph := buildGraph [(1, 2, 1, true), (2, 3, 2, true)]

/-- A weighted graph with an isolated vertex 3 (unreachable from 1). -/
def gD : WGraph := [(1, [(2, 5)]), (2, [(1, 5)]), (3, [])]

/-- A two-vertex weighted graph in which every pair is reachable. -/
def g2W : WGraph := [(1, [(2, 5)]), (2, [(1, 5)])]

/-- The unit-weight path graph 1-2-3. -/
def gU : WGraph := [(1, [(2, 1)]), (2, [(1, 1), (3, 1)]), (3, [(2, 1)])]

/-- A two-vertex traversal graph. -/
def ng2 : NGraph := [(1, [2]), (2, [1])]

/-- The star graph on vertices 1, 2, 3 centered at 1, as the traversal
engine sees it. -/
def nxg4 : NGraph := [(1, [2, 3]), (2, [1]), (3, [1])]

/-- C1: for every graph with non-negative edge weights and every start
vertex present in the graph, dijkstra_heap returns a distance map over all
vertices that assigns to each vertex reachable from start the minimum total
weight over all paths from start to it, and assigns infinity to every
unreachable vertex. -/
theorem claim_C1_dijkstra_min_dist {g : WGraph} {start : ℕ} {fuel : ℕ}
    (hn : Nonneg g) (hc : Closed g) (hs : start ∈ vertices g)
    (hfuel : dijkstraFuel g ≤ fuel) :
    ∃ dist prev, dijkstra_heap g start fuel = some (dist, prev) ∧
      dKeys dist = vertices g ∧
      ∀ v ∈ vertices g,
        (Reach g start v →
          ∃ kv : ℤ, dGet dist v = some ((kv : ℤ) : WithTop ℤ) ∧
            IsMinDist g start v kv) ∧
        (¬ Reach g start v → dGet dist v = some ⊤) := by
  obtain ⟨dist, prev, hrun, hdk, _, hmain, _⟩ := dijkstra_heap_spec hc hn hs hfuel
  exact ⟨dist, prev, hrun, hdk, hmain⟩

/-- C1, instantiated on gC1 from start vertex 1. -/
theorem claim_C1_witness :
    ∃ dist prev,
      dijkstra_heap gC1 1 (dijkstraFuel gC1) = some (dist, prev) ∧
      dKeys dist = vertices gC1 ∧
      ∀ v ∈ vertices gC1,
        (Reach gC1 1 v →
          ∃ kv : ℤ, dGet dist v = some ((kv : ℤ) : WithTop ℤ) ∧
            IsMinDist gC1 1 v kv) ∧
        (¬ Reach gC1 1 v → dGet dist v = some ⊤) :=
  claim_C1_dijkstra_min_dist (nonneg_of_entries (by decide))
    (closed_of_entries (by decide)) (by decide) (le_refl _)

/-- C2: for every graph and every goal reachable from a start vertex of the
graph, bfs_path returns a path from start to goal whose hop count is minimal
among all walks from start to goal. -/
theorem claim_C2_bfs_min_hops {g : NGraph} {start goal : ℕ} {fuel : ℕ}
    (hc : NClosed g) (hs : start ∈ dKeys g) (hr : NReach g start goal)
    (hfuel : bfsFuel g start ≤ fuel) :
    ∃ p ord, bfs_path g start goal fuel = some (some p, ord) ∧
      ∃ vs, p = start :: vs ∧ NWalk g start vs goal ∧
        IsMinHops g start goal vs.length := by
  obtain ⟨r, ordF, hrun, hsome, hnone⟩ := bfs_path_spec hc hs hfuel
  cases r with
  | none => exact absurd hr (hnone rfl)
  | some p => exact ⟨p, ordF, hrun, hsome p rfl⟩

/-- C2, instantiated on ng2 from 1 to 2. -/
theorem claim_C2_witness :
    ∃ p ord, bfs_path ng2 1 2 3 = some (some p, ord) ∧
      ∃ vs, p = 1 :: vs ∧ NWalk ng2 1 vs 2 ∧
        IsMinHops ng2 1 2 vs.length :=
  claim_C2_bfs_min_hops (nclosed_of_entries (by decide)) (by decide)
    ⟨[2], NWalk.cons (show dGet ng2 1 = some [2] from rfl) (by simp) (NWalk.nil 2)⟩ (by decide)

/-- C3 is refuted as stated: on a graph with an unreachable pair the
distance-matrix construction does not record infinity — the lookup of the
missing target in the per-source length dictionary raises a KeyError and the
whole construction aborts. On gD (isolated vertex 3) the per-source length
dictionaries are built fine, but create_distance_matrix raises. -/
theorem claim_C3_counterexample :
    (find_all_shortest_paths gD (dijkstraFuel gD)).isSome = true ∧
    (find_all_shortest_paths gD (dijkstraFuel gD)).bind
      (fun L => create_distance_matrix gD L) = none := by decide

/-- C3 (amended): when every ordered pair of vertices is reachable (and the
vertex list has no duplicates), the construction succeeds and yields a
square table over the vertices whose diagonal entries are 0 and whose
off-diagonal entry (s, t) is the minimum weighted distance from s to t. -/
theorem claim_C3_amended {g : WGraph} {fuel : ℕ}
    (hc : Closed g) (hn : Nonneg g) (hnd : (dKeys g).Nodup)
    (hall : ∀ s ∈ dKeys g, ∀ t ∈ dKeys g, Reach g s t)
    (hfuel : dijkstraFuel g ≤ fuel) :
    ∃ L M, find_all_shortest_paths g fuel = some L ∧
      create_distance_matrix g L = some M ∧ dKeys M = dKeys g ∧
      ∀ s ∈ dKeys g, ∃ row, dGet M s = some row ∧ dKeys row = dKeys g ∧
        ∀ t ∈ dKeys g, ∃ k, dGet row t = some k ∧
          (s = t → k = 0) ∧ (s ≠ t → IsMinDist g s t k) := by
  obtain ⟨L, hL, hLk, hLget⟩ := buildLengths_spec (dKeys g)
    (fun s hs => ((nxLengths_spec hc hn hnd hs hfuel).imp fun row h => h.1))
  have hcell : ∀ s ∈ dKeys g, ∀ t ∈ dKeys g, ∃ k,
      matrixCell L s t = some k ∧ (s = t → k = 0) ∧
      (s ≠ t → IsMinDist g s t k) := by
    intro s hs t ht
    by_cases hst : s = t
    · exact ⟨0, by simp [matrixCell, hst], fun _ => rfl, fun h => absurd hst h⟩
    · have hsL : s ∈ dKeys L := by rw [hLk]; exact hs
      obtain ⟨row, hrow⟩ := (mem_dKeys_iff _ _).mp hsL
      have hnx : nxLengths g s fuel = some row := hLget s row hrow
      obtain ⟨row2, hnx2, hprops⟩ := nxLengths_spec hc hn hnd hs hfuel
      rw [hnx] at hnx2
      simp only [Option.some.injEq] at hnx2
      subst hnx2
      obtain ⟨k, hk, hmin⟩ := (hprops t ht).1 (hall s hs t ht)
      refine ⟨k, ?_, fun h => absurd h hst, fun _ => hmin⟩
      unfold matrixCell
      rw [if_neg hst, hrow]
      exact hk
  obtain ⟨M, hM, hMk, hMget⟩ := buildRows_spec (dKeys g)
    (fun s hs => (matrixRow_spec (dKeys g)
      (fun t ht => ((hcell s hs t ht).imp fun k h => h.1))).imp
        fun row h => h.1)
  refine ⟨L, M, hL, hM, hMk, ?_⟩
  intro s hs
  have hsM : s ∈ dKeys M := by rw [hMk]; exact hs
  obtain ⟨row, hrowM⟩ := (mem_dKeys_iff _ _).mp hsM
  have hmr : matrixRow L s (dKeys g) = some row := hMget s row hrowM
  obtain ⟨row2, hmr2, hrk, hrget⟩ := matrixRow_spec (dKeys g)
    (fun t ht => ((hcell s hs t ht).imp fun k h => h.1))
  rw [hmr] at hmr2
  simp only [Option.some.injEq] at hmr2
  subst hmr2
  refine ⟨row, hrowM, hrk, ?_⟩
  intro t ht
  have htr : t ∈ dKeys row := by rw [hrk]; exact ht
  obtain ⟨k, hk⟩ := (mem_dKeys_iff _ _).mp htr
  have hck : matrixCell L s t = some k := hrget t k hk
  obtain ⟨k2, hck2, hdiag, hoff⟩ := hcell s hs t ht
  rw [hck] at hck2
  simp only [Option.some.injEq] at hck2
  subst hck2
  exact ⟨k, hk, hdiag, hoff⟩

/-- C3 (amended), instantiated on the all-pairs-reachable graph g2W. -/
theorem claim_C3_witness :
    ∃ L M, find_all_shortest_paths g2W (dijkstraFuel g2W) = some L ∧
      create_distance_matrix g2W L = some M ∧ dKeys M = dKeys g2W ∧
      ∀ s ∈ dKeys g2W, ∃ row, dGet M s = some row ∧ dKeys row = dKeys g2W ∧
        ∀ t ∈ dKeys g2W, ∃ k, dGet row t = some k ∧
          (s = t → k = 0) ∧ (s ≠ t → IsMinDist g2W s t k) := by
  have h12 : Reach g2W 1 2 :=
    ⟨[(2, 5)], CostWalk.cons (show dGet g2W 1 = some [(2, 5)] from rfl) (by simp) (CostWalk.nil 2)⟩
  have h21 : Reach g2W 2 1 :=
    ⟨[(1, 5)], CostWalk.cons (show dGet g2W 2 = some [(1, 5)] from rfl) (by simp) (CostWalk.nil 1)⟩
  refine claim_C3_amended (closed_of_entries (by decide))
    (nonneg_of_entries (by decide)) (by decide) ?_ (le_refl _)
  intro s hs t ht
  have hs' : s = 1 ∨ s = 2 := by simpa [dKeys, g2W] using hs
  have ht' : t = 1 ∨ t = 2 := by simpa [dKeys, g2W] using ht
  rcases hs' with rfl | rfl <;> rcases ht' with rfl | rfl
  · exact ⟨[], CostWalk.nil 1⟩
  · exact h12
  · exact h21
  · exact ⟨[], CostWalk.nil 2⟩

/-- C4 is refuted as stated for bfs_path: on the star graph nxg4 searching
1 to 2, the returned visit order is [1, 2, 3] although only 1 and 2 were
ever dequeued (3 was enqueued, and recorded as visited, but never dequeued).
The instrumented loop returns the result and visit order of the plain loop
together with the dequeue sequence. -/
theorem claim_C4_counterexample :
    bfs_path nxg4 1 2 10 = some (some [1, 2], [1, 2, 3]) ∧
    bfs_pathT nxg4 1 2 10 = some (some [1, 2], [1, 2, 3], [1, 2]) ∧
    ([1, 2, 3] : List ℕ) ≠ [1, 2] := by decide

/-- C4 (amended): the visit order returned by dfs_path lists exactly the
vertices actually popped, each at its first pop, in pop order; the visit
order returned by bfs_path lists the dequeued vertices in dequeue order
followed by the vertices enqueued but never dequeued (it is the enqueue
order, not the dequeue sequence), regardless of whether a path was found. -/
theorem claim_C4_amended {g : NGraph} {start goal : ℕ} {fuel : ℕ} :
    (∀ r ordF deqF,
      bfs_pathT g start goal fuel = some (r, ordF, deqF) →
      bfs_path g start goal fuel = some (r, ordF) ∧ ∃ t, ordF = deqF ++ t) ∧
    (∀ r ordF popsF,
      dfs_pathT g start goal fuel = some (r, ordF, popsF) →
      dfs_path g start goal fuel = some (r, ordF) ∧
        ordF = firstDedup popsF) := by
  constructor
  · intro r ordF deqF h
    unfold bfs_pathT at h
    refine ⟨bfsLoopT_proj fuel _ _ _ _ _ _ _ h, ?_⟩
    exact bfsLoopT_ord fuel [[start]] [start] [start] [] r ordF deqF
      (by simp [pathEnd]) h
  · intro r ordF popsF h
    unfold dfs_pathT at h
    refine ⟨dfsLoopT_proj fuel _ _ _ _ _ _ _ h, ?_⟩
    exact dfsLoopT_ord fuel [[start]] [] [] [] r ordF popsF
      (fun x => Iff.rfl) rfl h

/-- C4 (amended), instantiated on nxg4 from 1 to 2 for both traversals. -/
theorem claim_C4_witness :
    (bfs_path nxg4 1 2 10 = some (some [1, 2], [1, 2, 3]) ∧
      ∃ t, ([1, 2, 3] : List ℕ) = [1, 2] ++ t) ∧
    (dfs_path nxg4 1 2 10 = some (some [1, 2], [1, 2]) ∧
      ([1, 2] : List ℕ) = firstDedup [1, 2]) :=
  ⟨claim_C4_amended.1 (some [1, 2]) [1, 2, 3] [1, 2] (by decide),
   claim_C4_amended.2 (some [1, 2]) [1, 2] [1, 2] (by decide)⟩

/-- C5: on a graph whose edge weights are all 1, for every goal reachable
from a start vertex of the graph, the distance dijkstra_heap computes for
the goal equals the hop count (edges) of the path bfs_path returns. -/
theorem claim_C5_unit_weight_agreement {g : WGraph} {start goal : ℕ}
    {bfuel dfuel : ℕ} (hu : UnitW g) (hc : Closed g)
    (hs : start ∈ dKeys g) (hr : Reach g start goal)
    (hbf : bfsFuel (toNx g) start ≤ bfuel) (hdf : dijkstraFuel g ≤ dfuel) :
    ∃ p ord dist prev,
      bfs_path (toNx g) start goal bfuel = some (some p, ord) ∧
      dijkstra_heap g start dfuel = some (dist, prev) ∧
      dGet dist goal = some (((p.length - 1 : ℕ) : ℤ) : WithTop ℤ) := by
  have hn : Nonneg g := fun u l hl p hp => by
    rw [hu u l hl p hp]
    exact zero_le_one
  have hnc : NClosed (toNx g) := toNx_closed hc
  have hs' : start ∈ dKeys (toNx g) := by rw [dKeys_toNx]; exact hs
  have hnr : NReach (toNx g) start goal := by
    obtain ⟨steps, hw⟩ := hr
    exact ⟨_, costWalk_toNx hw⟩
  obtain ⟨r, ord, hrun, hsome, hnone⟩ := bfs_path_spec hnc hs' hbf
  cases r with
  | none => exact absurd hnr (hnone rfl)
  | some p =>
      obtain ⟨vs, hp, hw, hmin⟩ := hsome p rfl
      obtain ⟨dist, prev, hdrun, _, _, hmain, _⟩ :=
        dijkstra_heap_spec hc hn hs hdf
      have hgk : goal ∈ dKeys g := by
        obtain ⟨steps, hws⟩ := hr
        exact CostWalk.target_mem hc hws hs
      obtain ⟨k, hk, hkmin⟩ := (hmain goal hgk).1 hr
      have h1 : k ≤ (vs.length : ℤ) := by
        obtain ⟨steps, hws, hmap, hcost⟩ := nWalk_toNx hu hw
        have hle := hkmin.2 steps hws
        omega
      have h2 : (vs.length : ℤ) ≤ k := by
        obtain ⟨⟨steps, hws, _, hcost⟩, _⟩ := hkmin
        have hlen := unit_cost_eq_length hu hws
        have hge := hmin.2 (steps.map Prod.fst) (costWalk_toNx hws)
        simp only [List.length_map] at hge
        omega
      have hkv : k = (vs.length : ℤ) := le_antisymm h1 h2
      refine ⟨p, ord, dist, prev, hrun, hdrun, ?_⟩
      rw [hk, hkv, hp]
      simp

/-- C5, instantiated on the unit-weight path graph gU from 1 to 3. -/
theorem claim_C5_witness :
    ∃ p ord dist prev,
      bfs_path (toNx gU) 1 3 4 = some (some p, ord) ∧
      dijkstra_heap gU 1 17 = some (dist, prev) ∧
      dGet dist 3 = some (((p.length - 1 : ℕ) : ℤ) : WithTop ℤ) :=
  claim_C5_unit_weight_agreement (unitW_of_entries (by decide))
    (closed_of_entries (by decide)) (by decide)
    ⟨[(2, 1), (3, 1)],
      CostWalk.cons (show dGet gU 1 = some [(2, 1)] from rfl) (by simp)
        (CostWalk.cons (show dGet gU 2 = some [(1, 1), (3, 1)] from rfl)
          (by simp) (CostWalk.nil 3))⟩
    (by decide) (by decide)

/-- C6: for a non-negatively weighted graph and a start vertex of the
graph, on the (dist, prev) pair dijkstra_heap produces: an unreachable
target other than start gets reconstruct_path = None with dist[target]
infinite, and a reachable target gets the reversed backward walk, a
sequence beginning at start and ending at target. -/
theorem claim_C6_reconstruct {g : WGraph} {start : ℕ} {fuel : ℕ}
    {dist : List (ℕ × WithTop ℤ)} {prev : List (ℕ × Option ℕ)}
    (hc : Closed g) (hn : Nonneg g) (hs : start ∈ dKeys g)
    (hfuel : dijkstraFuel g ≤ fuel)
    (hrun : dijkstra_heap g start fuel = some (dist, prev)) :
    ∀ target ∈ vertices g, ∀ rfuel, (dKeys g).length < rfuel →
      (¬ Reach g start target → target ≠ start →
        reconstruct_path prev start target rfuel = some none ∧
        dGet dist target = some ⊤) ∧
      (Reach g start target →
        ∃ p, reconstruct_path prev start target rfuel = some (some p) ∧
          p.head? = some start ∧ p.getLast? = some target) := by
  obtain ⟨dist2, prev2, hrun2, _, _, hmain, hrec⟩ :=
    dijkstra_heap_spec hc hn hs hfuel
  rw [hrun] at hrun2
  simp only [Option.some.injEq, Prod.mk.injEq] at hrun2
  obtain ⟨hd, hp⟩ := hrun2
  subst hd
  subst hp
  intro target ht rfuel hrf
  exact ⟨fun hnr hne => ⟨(hrec target ht rfuel hrf).2 hnr hne,
      (hmain target ht).2 hnr⟩,
    fun hr => (hrec target ht rfuel hrf).1 hr⟩

/-- The distance dictionary dijkstra_heap computes on gD from 1. -/
def distD : List (ℕ × WithTop ℤ) :=
  [(1, ((0 : ℤ) : WithTop ℤ)), (2, ((5 : ℤ) : WithTop ℤ)), (3, ⊤)]

/-- The predecessor dictionary dijkstra_heap computes on gD from 1. -/
def prevMapD : List (ℕ × Option ℕ) := [(1, none), (2, some 1), (3, none)]

/-- C6, instantiated on gD from 1: the unreachable target 3 and the
reachable target 2. -/
theorem claim_C6_witness :
    (reconstruct_path prevMapD 1 3 4 = some none ∧ dGet distD 3 = some ⊤) ∧
    (∃ p, reconstruct_path prevMapD 1 2 4 = some (some p) ∧
      p.head? = some 1 ∧ p.getLast? = some 2) := by
  have hc : Closed gD := closed_of_entries (by decide)
  have hn : Nonneg gD := nonneg_of_entries (by decide)
  have hfuel : dijkstraFuel gD ≤ 11 := by decide
  have hrun : dijkstra_heap gD 1 11 = some (distD, prevMapD) := by decide
  have h := claim_C6_reconstruct hc hn (by decide) hfuel hrun
  refine ⟨(h 3 (by decide) 4 (by decide)).1 ?_ (by decide),
    (h 2 (by decide) 4 (by decide)).2 ?_⟩
  · exact dijkstra_top_unreach hc hn (by decide) hfuel hrun (by decide)
  · exact ⟨[(2, 5)],
      CostWalk.cons (show dGet gD 1 = some [(2, 5)] from rfl) (by simp) (CostWalk.nil 2)⟩

/-- The traversal graph used to refute C7. -/
def ngx : NGraph := [(1, [2]), (2, [1])]

/-- C7 is refuted as stated: bfs_path called with a start vertex that was
never added to the graph does not always raise — when goal equals that
start, the goal test fires before the adjacency lookup and the call returns
a normal path [start], so the "unknown vertex" outcome is not always
reported as an error. -/
theorem claim_C7_counterexample :
    bfs_path ngx 3 3 5 = some (some [3], [3]) ∧ dGet ngx 3 = none := by
  constructor
  · exact bfs_path_self ngx 3 4
  · decide

/-- C7 (amended): a missing key aborts reconstruct_path with the raised
KeyError (outer none); an unreachable goal from a known start is a normal
return with a none path; and a start vertex never added to the graph aborts
bfs_path with a raised error — except in the goal = start case of the
counterexample, which must be excluded. -/
theorem claim_C7_amended :
    (∀ (prev : List (ℕ × Option ℕ)) (start target fuel : ℕ),
      dGet prev target = none →
      reconstruct_path prev start target fuel = none) ∧
    (∀ (g : NGraph) (start goal fuel : ℕ),
      NClosed g → start ∈ dKeys g → bfsFuel g start ≤ fuel →
      ¬ NReach g start goal →
      ∃ ord, bfs_path g start goal fuel = some (none, ord)) ∧
    (∀ (g : NGraph) (start goal fuel : ℕ),
      start ∉ dKeys g → goal ≠ start →
      bfs_path g start goal (fuel + 1) = none) := by
  refine ⟨fun prev start target fuel h => reconstruct_path_keyError h,
    ?_, fun g start goal fuel hs hne => bfs_path_unknown_start hs hne fuel⟩
  intro g start goal fuel hc hs hfuel hnr
  obtain ⟨r, ord, hrun, hsome, _⟩ := bfs_path_spec hc hs hfuel
  cases r with
  | some p =>
      obtain ⟨vs, _, hw, _⟩ := hsome p rfl
      exact absurd ⟨vs, hw⟩ hnr
  | none => exact ⟨ord, hrun⟩

/-- C7 (amended), instantiated: a KeyError in reconstruction, a normal
none-path return for an unreachable goal, and an aborted search from an
unknown start. -/
theorem claim_C7_witness :
    reconstruct_path [(1, none)] 1 2 3 = none ∧
    (∃ ord, bfs_path ngx 1 5 4 = some (none, ord)) ∧
    bfs_path ([] : NGraph) 1 2 1 = none := by
  have hc : NClosed ngx := nclosed_of_entries (by decide)
  refine ⟨claim_C7_amended.1 [(1, none)] 1 2 3 (by decide), ?_,
    claim_C7_amended.2.2 [] 1 2 0 (by decide) (by decide)⟩
  refine claim_C7_amended.2.1 ngx 1 5 4 hc (by decide) (by decide) ?_
  rintro ⟨vs, hw⟩
  have h5 : (5 : ℕ) ∈ dKeys ngx := nwalk_target_mem hc hw (by decide)
  exact absurd h5 (by decide)

/-- C8: over one run of dijkstra_heap the stored distance of each vertex
never increases: initialization gives the source 0 and every other vertex
infinity; a relaxation writes dist[v] only when the candidate is strictly
below the current value (and writes exactly that candidate); and both the
neighbor loop and the whole main loop leave every vertex's distance at most
its previous value. -/
theorem claim_C8_monotone :
    (∀ (g : WGraph) (start : ℕ),
      dGet (initDist g start) start = some ((0 : ℤ) : WithTop ℤ)) ∧
    (∀ (g : WGraph) (start v : ℕ), v ∈ dKeys g → v ≠ start →
      dGet (initDist g start) v = some ⊤) ∧
    (∀ (k w : ℤ) (u v : ℕ) (rest : List (ℕ × ℤ)) (st : DState)
      (dv : WithTop ℤ), dGet st.dist v = some dv →
      (¬ ((k + w : ℤ) : WithTop ℤ) < dv →
        relaxAll k u ((v, w) :: rest) st = relaxAll k u rest st) ∧
      (((k + w : ℤ) : WithTop ℤ) < dv →
        relaxAll k u ((v, w) :: rest) st =
          relaxAll k u rest
            ⟨dSet st.dist v ((k + w : ℤ) : WithTop ℤ),
             dSet st.prev v (some u), st.heap ++ [(k + w, v)]⟩)) ∧
    (∀ (k : ℤ) (u : ℕ) (nbrs : List (ℕ × ℤ)) (st st2 : DState),
      relaxAll k u nbrs st = some st2 →
      ∀ x dx dx2, dGet st.dist x = some dx → dGet st2.dist x = some dx2 →
        dx2 ≤ dx) ∧
    (∀ (g : WGraph) (fuel : ℕ) (st : DState)
      (dist : List (ℕ × WithTop ℤ)) (prev : List (ℕ × Option ℕ)),
      dLoop g fuel st = some (dist, prev) →
      ∀ x dx dx2, dGet st.dist x = some dx → dGet dist x = some dx2 →
        dx2 ≤ dx) := by
  refine ⟨initDist_start, fun g start v hv hne => initDist_other g start v hv hne,
    ?_, fun k u nbrs st st2 h => relaxAll_mono nbrs st st2 h,
    fun g fuel st dist prev h => dLoop_mono fuel st dist prev h⟩
  intro k w u v rest st dv hdv
  constructor
  · intro hge
    simp only [relaxAll]
    rw [hdv]
    dsimp only
    rw [if_neg hge]
  · intro hlt
    simp only [relaxAll]
    rw [hdv]
    dsimp only
    rw [if_pos hlt]

/-- The state of the relaxation step exercised by the C8 instantiation. -/
def dsW : DState :=
  ⟨[(1, ((0 : ℤ) : WithTop ℤ)), (2, ⊤)], [(1, none), (2, none)], []⟩

/-- C8, instantiated: the initial map on gD, one guarded relaxation on dsW,
and the non-increase of vertex 2 across that relaxation. -/
theorem claim_C8_witness :
    dGet (initDist gD 1) 1 = some ((0 : ℤ) : WithTop ℤ) ∧
    dGet (initDist gD 1) 3 = some ⊤ ∧
    relaxAll 0 1 [(2, 5)] dsW =
      relaxAll 0 1 []
        ⟨dSet dsW.dist 2 ((0 + 5 : ℤ) : WithTop ℤ),
         dSet dsW.prev 2 (some 1), dsW.heap ++ [(0 + 5, 2)]⟩ ∧
    (((5 : ℤ) : WithTop ℤ) ≤ ⊤) := by
  refine ⟨claim_C8_monotone.1 gD 1,
    claim_C8_monotone.2.1 gD 1 3 (by decide) (by decide),
    (claim_C8_monotone.2.2.1 0 5 1 2 [] dsW ⊤ (by decide)).2 (by decide),
    ?_⟩
  exact claim_C8_monotone.2.2.2.1 0 1 [(2, 5)] dsW
    ⟨[(1, ((0 : ℤ) : WithTop ℤ)), (2, ((5 : ℤ) : WithTop ℤ))],
     [(1, none), (2, some 1)], [((5 : ℤ), 2)]⟩
    (by rfl) 2 ⊤ ((5 : ℤ) : WithTop ℤ) (by decide) (by decide)

/-- C9: after any sequence of add_edge calls on the empty graph, both
endpoints of every call are keys of the adjacency dictionary (the target of
a directed call gets an entry too), and every undirected call leaves (v, w)
in u's adjacency list and (u, w) in v's with the identical weight. -/
theorem claim_C9_add_edge_invariant (ops : List (ℕ × ℕ × ℤ × Bool)) :
    ∀ op ∈ ops,
      op.1 ∈ dKeys (buildGraph ops) ∧ op.2.1 ∈ dKeys (buildGraph ops) ∧
      (op.2.2.2 = true →
        (op.2.1, op.2.2.1) ∈ adjOf (buildGraph ops) op.1 ∧
        (op.1, op.2.2.1) ∈ adjOf (buildGraph ops) op.2.1) := by
  have H : ∀ (l : List (ℕ × ℕ × ℤ × Bool)) (g : WGraph), ∀ op ∈ l,
      op.1 ∈ dKeys (l.foldl (fun g o => add_edge g o.1 o.2.1 o.2.2.1 o.2.2.2) g) ∧
      op.2.1 ∈ dKeys (l.foldl (fun g o => add_edge g o.1 o.2.1 o.2.2.1 o.2.2.2) g) ∧
      (op.2.2.2 = true →
        (op.2.1, op.2.2.1) ∈
          adjOf (l.foldl (fun g o => add_edge g o.1 o.2.1 o.2.2.1 o.2.2.2) g) op.1 ∧
        (op.1, op.2.2.1) ∈
          adjOf (l.foldl (fun g o => add_edge g o.1 o.2.1 o.2.2.1 o.2.2.2) g) op.2.1) := by
    intro l
    induction l with
    | nil =>
        intro g op hop
        exact absurd hop (List.not_mem_nil op)
    | cons o rest ih =>
        intro g op hop
        simp only [List.foldl_cons]
        rcases List.mem_cons.mp hop with heq | hop2
        · subst heq
          obtain ⟨u, v, w, b⟩ := op
          refine ⟨foldl_add_edge_mem_keys (add_edge_mem_u g u v w b),
            foldl_add_edge_mem_keys (add_edge_mem_v g u v w b), ?_⟩
          intro hb
          cases b with
          | false => simp at hb
          | true =>
              exact ⟨foldl_add_edge_mem_adj (add_edge_fwd_mem g u v w),
                foldl_add_edge_mem_adj (add_edge_bwd_mem g u v w)⟩
        · exact ih _ op hop2
  exact H ops []

/-- C9, instantiated on one undirected and one directed add_edge call. -/
theorem claim_C9_witness :
    1 ∈ dKeys (buildGraph [(1, 2, 3, true), (4, 5, 7, false)]) ∧
    2 ∈ dKeys (buildGraph [(1, 2, 3, true), (4, 5, 7, false)]) ∧
    (2, 3) ∈ adjOf (buildGraph [(1, 2, 3, true), (4, 5, 7, false)]) 1 ∧
    (1, 3) ∈ adjOf (buildGraph [(1, 2, 3, true), (4, 5, 7, false)]) 2 := by
  obtain ⟨h1, h2, h3⟩ :=
    claim_C9_add_edge_invariant [(1, 2, 3, true), (4, 5, 7, false)]
      (1, 2, 3, true) (by decide)
  obtain ⟨h4, h5⟩ := h3 rfl
  exact ⟨h1, h2, h4, h5⟩

/-- C10: add_edge never deduplicates — two identical undirected calls leave
(at least) two more copies of (v, w) in u's adjacency list and two more
copies of (u, w) in v's, so neighbor sequences may repeat pairs. -/
theorem claim_C10_no_dedup (g : WGraph) (u v : ℕ) (w : ℤ) :
    (adjOf g u).count (v, w) + 2 ≤
      (adjOf (add_edge (add_edge g u v w true) u v w true) u).count (v, w) ∧
    (adjOf g v).count (u, w) + 2 ≤
      (adjOf (add_edge (add_edge g u v w true) u v w true) v).count (u, w) := by
  constructor
  · have h1 := count_adjOf_add_edge_u g u v w
    have h2 := count_adjOf_add_edge_u (add_edge g u v w true) u v w
    omega
  · have h1 := count_adjOf_add_edge_v g u v w
    have h2 := count_adjOf_add_edge_v (add_edge g u v w true) u v w
    omega
